import Mathlib

/-!
Verification development for the skyforest-rasterizer tiled (Big)TIFF reader.

The Rust sources are shallowly embedded: bytes are `Nat` values (< 256 where it
matters), machine `u64`/`usize` arithmetic is `Nat` reduced by `wrap64` where the
source can wrap, fallible operations return `Except Err`, and a Rust panic
(slice index out of range) is modelled as the distinguished error
`Err.rustPanic`.  File contents are total functions from positions to bytes
together with a size, which keeps every definition executable.

Modelling notes, fixed once here:
* `usize` is assumed 64-bit (the crate targets 64-bit platforms); `as usize`
  casts between `u64` and `usize` are therefore the identity.
* Arithmetic follows the release profile of rustc: overflow wraps (`wrap64`).
* `BufferedReader` buffering is transparent: every read in the modelled paths
  is preceded by an absolute `seek`, so a read of `n` bytes at offset `p`
  succeeds iff `p + n ≤ size` (otherwise `read_exact` yields an I/O error).
* The LZW, Deflate and JPEG decompressors (src/compression/lzw.rs bit-level
  code plus the external flate2 and jpeg-decoder crates) are abstracted as the
  parameter record `CodecEnv`: no claim below depends on their behaviour, and
  every theorem that mentions decompression is universally quantified over it.
  PackBits and the uncompressed case are modelled concretely from the source.
* The prefetch predictor and its worker pool are `None` on a freshly opened
  reader (`TileReader::new`); the modelled paths never enable them, so
  `collect_prefetched_tiles` and `prefetch_tiles_async` are no-ops.
-/

namespace SkyForest

/-- Error kinds of src/error.rs (`enum Error`).  `ioError` stands for
`Error::Io(..)` (the payload keeps only the message), and `rustPanic` is not a
variant of the Rust enum: it models a Rust panic such as an out-of-range slice
index, so that the embedding stays total. -/
inductive Err where
  | ioError : String → Err
  | invalidFormat : String → Err
  | invalidByteOrder : Nat → Err
  | invalidMagic : Nat → Err
  | invalidTag : Nat → Err
  | missingTag : Nat → Err
  | unsupported : String → Err
  | invalidOffset : Nat → Err
  | outOfBounds : String → Err
  | projection : String → Err
  | rustPanic : String → Err
  deriving DecidableEq

deriving instance DecidableEq for Except

/-- Byte order, src/io/byte_order.rs (`enum ByteOrder`). -/
inductive ByteOrder where
  | littleEndian : ByteOrder
  | bigEndian : ByteOrder
  deriving DecidableEq

/-- A file (equivalently, its whole-file memory map): a total byte function
plus a size.  Positions at or beyond `size` are not part of the file. -/
structure TFile where
  byteAt : Nat → Nat
  size : Nat

/-- Reduction modulo 2^64, the wrapping of Rust `u64`/`usize` arithmetic. -/
def wrap64 (n : Nat) : Nat := n % 18446744073709551616

/-- Little-endian word assembly, `uN::from_le_bytes`. -/
def leWord (bytes : List Nat) : Nat := bytes.foldr (fun b acc => b + 256 * acc) 0

/-- Big-endian word assembly, `uN::from_be_bytes`. -/
def beWord (bytes : List Nat) : Nat := bytes.foldl (fun acc b => 256 * acc + b) 0

/-- A seek to `pos` followed by `read_exact` of `n` bytes on the buffered
reader: succeeds iff the range lies within the file, otherwise `read_exact`
reports an I/O error (UnexpectedEof), surfaced as `Error::Io`. -/
def readExact (f : TFile) (pos n : Nat) : Except Err (List Nat) :=
  if pos + n ≤ f.size then
    .ok ((List.range n).map fun i => f.byteAt (pos + i))
  else
    .error (.ioError "failed to fill whole buffer")

/-- A Rust slice `&f[start..stop]` turned into a vector: panics when
`start > stop` or `stop > len` (src uses this shape on the memory map). -/
def sliceGet (f : TFile) (start stop : Nat) : Except Err (List Nat) :=
  if start ≤ stop ∧ stop ≤ f.size then
    .ok ((List.range (stop - start)).map fun i => f.byteAt (start + i))
  else
    .error (.rustPanic "slice index out of range")

/-- Handler dispatch of src/io/byte_order.rs: read `n` bytes at `pos` and
assemble them in the handler byte order (`read_u16`/`read_u32`/`read_u64`). -/
def readUInt (bo : ByteOrder) (n : Nat) (f : TFile) (pos : Nat) : Except Err Nat :=
  (readExact f pos n).map fun bs =>
    match bo with
    | .littleEndian => leWord bs
    | .bigEndian => beWord bs

/-! ### PackBits, src/compression/packbits.rs -/

/-- Body of `packbits::decompress`: the `while pos < data.len()` loop over the
remaining input.  `fuel` bounds the recursion and is started at the input
length; every iteration consumes at least the header byte, so the fuel never
runs out (`packbitsGo_fuel`).  A header byte `h` (a `u8` reinterpreted as
`i8`) is: `128` ↦ no-op (−128); `h ≤ 127` ↦ copy the next `h+1` literal
bytes; `129 ≤ h ≤ 255` ↦ repeat the next byte `1 − (h − 256) = 257 − h`
times. -/
def packbitsGo : Nat → List Nat → Except Err (List Nat)
  | _, [] => .ok []
  | 0, _ :: _ => .error (.invalidFormat "PackBits: fuel exhausted")
  | fuel + 1, h :: rest =>
    if h = 128 then
      packbitsGo fuel rest
    else if h ≤ 127 then
      let count := h + 1
      if rest.length < count then
        .error (.invalidFormat "PackBits: Insufficient literal bytes")
      else
        (packbitsGo fuel (rest.drop count)).map fun out => rest.take count ++ out
    else
      match rest with
      | [] => .error (.invalidFormat "PackBits: Missing run byte")
      | b :: rest2 =>
        let count := 257 - h
        (packbitsGo fuel rest2).map fun out => List.replicate count b ++ out

/-- `packbits::decompress` (src/compression/packbits.rs). -/
def packbitsDecompress (data : List Nat) : Except Err (List Nat) :=
  packbitsGo data.length data

theorem packbitsGo_fuel (fuel : Nat) :
    ∀ data : List Nat, data.length ≤ fuel →
      packbitsGo fuel data = packbitsGo data.length data := by
  induction fuel using Nat.strong_induction_on with
  | _ fuel ih =>
    intro data hlen
    match data with
    | [] => cases fuel <;> rfl
    | h :: rest =>
      match fuel, hlen with
      | f + 1, hlen =>
        have hr : rest.length ≤ f := by simpa using hlen
        simp only [packbitsGo, List.length_cons]
        by_cases h128 : h = 128
        · simp only [if_pos h128]
          rw [ih f (Nat.lt_succ_self f) rest hr,
            ih rest.length (Nat.lt_succ_of_le hr) rest (le_refl _)]
        · simp only [if_neg h128]
          by_cases hlit : h ≤ 127
          · simp only [if_pos hlit]
            by_cases hshort : rest.length < h + 1
            · simp only [if_pos hshort]
            · simp only [if_neg hshort]
              have hdrop : (rest.drop (h + 1)).length ≤ rest.length := by
                simp [List.length_drop]
              rw [ih f (Nat.lt_succ_self f) _ (le_trans hdrop hr),
                ih rest.length (Nat.lt_succ_of_le hr) _ hdrop]
          · simp only [if_neg hlit]
            match rest, hr with
            | [], _ => rfl
            | b :: rest2, hr =>
              have hr2 : rest2.length + 1 ≤ f := by simpa using hr
              simp only [List.length_cons]
              rw [ih f (Nat.lt_succ_self f) rest2 (Nat.le_of_succ_le hr2),
                ih (rest2.length + 1) (Nat.lt_succ_of_le hr2) rest2
                  (Nat.le_succ _)]

/-- C4: PackBits decompression interprets every header byte `h` as a signed
`i8`: `0..=127` copies the next `h+1` literal bytes (error when fewer remain),
`-127..=-1` (raw `129..=255`) repeats the following byte `1-h` (raw `257-h`)
times (error when the run byte is missing), and `-128` (raw `128`) is a no-op;
the three concrete streams of the claim decode as stated. -/
theorem packbits_header_semantics :
    (∀ rest, packbitsDecompress (128 :: rest) = packbitsDecompress rest)
    ∧ (∀ h rest, h ≤ 127 → h + 1 ≤ rest.length →
        packbitsDecompress (h :: rest)
          = (packbitsDecompress (rest.drop (h + 1))).map
              (fun out => rest.take (h + 1) ++ out))
    ∧ (∀ h rest, h ≤ 127 → rest.length < h + 1 →
        packbitsDecompress (h :: rest)
          = .error (.invalidFormat "PackBits: Insufficient literal bytes"))
    ∧ (∀ h b rest, 129 ≤ h → h ≤ 255 →
        packbitsDecompress (h :: b :: rest)
          = (packbitsDecompress rest).map
              (fun out => List.replicate (257 - h) b ++ out))
    ∧ (∀ h, 129 ≤ h → h ≤ 255 →
        packbitsDecompress [h] = .error (.invalidFormat "PackBits: Missing run byte"))
    ∧ packbitsDecompress [2, 65, 66, 67] = .ok [65, 66, 67]
    ∧ packbitsDecompress [253, 170] = .ok [170, 170, 170, 170]
    ∧ packbitsDecompress [128, 1, 65, 66] = .ok [65, 66] := by
  refine ⟨?_, ?_, ?_, ?_, ?_, by decide, by decide, by decide⟩
  · intro rest
    simp only [packbitsDecompress, List.length_cons, packbitsGo, if_pos rfl]
    exact packbitsGo_fuel rest.length rest (le_refl _)
  · intro h rest hlit hlen
    have h128 : h ≠ 128 := by omega
    simp only [packbitsDecompress, List.length_cons, packbitsGo, if_neg h128,
      if_pos hlit, if_neg (Nat.not_lt.mpr hlen)]
    rw [packbitsGo_fuel rest.length _ (by simp [List.length_drop])]
  · intro h rest hlit hshort
    have h128 : h ≠ 128 := by omega
    simp only [packbitsDecompress, List.length_cons, packbitsGo, if_neg h128,
      if_pos hlit, if_pos hshort]
  · intro h b rest hlo _
    have h128 : h ≠ 128 := by omega
    have hlit : ¬ h ≤ 127 := by omega
    simp only [packbitsDecompress, List.length_cons, packbitsGo, if_neg h128,
      if_neg hlit]
    rw [packbitsGo_fuel (rest.length + 1) rest (Nat.le_succ _)]
  · intro h hlo _
    have h128 : h ≠ 128 := by omega
    have hlit : ¬ h ≤ 127 := by omega
    simp only [packbitsDecompress, List.length_cons, packbitsGo, if_neg h128,
      if_neg hlit]

/-- C4 witness: the run equation of `packbits_header_semantics` applied at the
concrete header `253` with run byte `170`. -/
theorem packbits_header_semantics_witness :
    packbitsDecompress [253, 170]
      = (packbitsDecompress []).map (fun out => List.replicate 4 170 ++ out) := by
  have h := packbits_header_semantics.2.2.2.1 253 170 [] (by decide) (by decide)
  simpa using h

/-! ### Horizontal predictor, src/formats/tiff/reader/tiles.rs -/

/-- Inner loop of `apply_horizontal_predictor` over one row past its first
byte: `row[i] = row[i].wrapping_add(prev); prev = row[i]`. -/
def predictRowGo (prev : Nat) : List Nat → List Nat
  | [] => []
  | b :: bs => ((b + prev) % 256) :: predictRowGo ((b + prev) % 256) bs

/-- One row of `apply_horizontal_predictor`: the first byte is untouched and
seeds `prev`. -/
def predictRow : List Nat → List Nat
  | [] => []
  | a :: rest => a :: predictRowGo a rest

/-- Row loop of `apply_horizontal_predictor`: row `r` covers the index range
`[r*width, min(r*width + width, len))`, i.e. successive `width`-sized chunks;
rows past the end of the data are empty and data past `height` rows is
untouched, exactly as in the source (`end = (start + width).min(data.len())`).
The x86_64/aarch64 SIMD paths compute byte-for-byte the same result as this
scalar form (they unroll the same recurrence in blocks of 16). -/
def applyRows (width : Nat) : Nat → List Nat → List Nat
  | 0, rest => rest
  | h + 1, rest => predictRow (rest.take width) ++ applyRows width h (rest.drop width)

/-- `apply_horizontal_predictor(data, width, height)`
(src/formats/tiff/reader/tiles.rs, identically in parallel.rs). -/
def applyHorizontalPredictor (data : List Nat) (width height : Nat) : List Nat :=
  applyRows width height data

/-- Row-wise wrapping discrete difference of the claim (spec item 7): within
each row, `d[0] = x[0]` and `d[i] = x[i] - x[i-1]` with wrapping 8-bit
subtraction.  Chunked into rows exactly like the predictor. -/
def diffRowGo (prev : Nat) : List Nat → List Nat
  | [] => []
  | b :: bs => ((b + 256 - prev % 256) % 256) :: diffRowGo b bs

/-- One row of the discrete difference. -/
def diffRow : List Nat → List Nat
  | [] => []
  | a :: rest => a :: diffRowGo a rest

/-- Row loop of the discrete difference, chunked like `applyRows`. -/
def diffRows (width : Nat) : Nat → List Nat → List Nat
  | 0, rest => rest
  | h + 1, rest => diffRow (rest.take width) ++ diffRows width h (rest.drop width)

/-- The row-wise wrapping discrete difference `diff(x)` of the claim. -/
def rowwiseDiff (data : List Nat) (width height : Nat) : List Nat :=
  diffRows width height data

theorem diffRowGo_length (prev : Nat) (bs : List Nat) :
    (diffRowGo prev bs).length = bs.length := by
  induction bs generalizing prev with
  | nil => rfl
  | cons b bs ih => simp [diffRowGo, ih]

theorem diffRow_length (l : List Nat) : (diffRow l).length = l.length := by
  cases l with
  | nil => rfl
  | cons a rest => simp [diffRow, diffRowGo_length]

theorem applyRows_nil (width h : Nat) : applyRows width h [] = [] := by
  induction h with
  | zero => rfl
  | succ h ih => simp [applyRows, predictRow, ih]

theorem diffRows_nil (width h : Nat) : diffRows width h [] = [] := by
  induction h with
  | zero => rfl
  | succ h ih => simp [diffRows, diffRow, ih]

theorem predictRowGo_diffRowGo (bs : List Nat) :
    ∀ prev, prev < 256 → (∀ b ∈ bs, b < 256) →
      predictRowGo prev (diffRowGo prev bs) = bs := by
  induction bs with
  | nil => intro prev _ _; rfl
  | cons b bs ih =>
    intro prev hprev hmem
    have hb : b < 256 := hmem b (by simp)
    have hkey : ((b + 256 - prev % 256) % 256 + prev) % 256 = b := by
      rw [Nat.mod_eq_of_lt hprev, Nat.mod_add_mod,
        Nat.sub_add_cancel (by omega : prev ≤ b + 256)]
      omega
    simp only [diffRowGo, predictRowGo, hkey]
    exact congrArg (b :: ·) (ih b hb (fun x hx => hmem x (by simp [hx])))

theorem predictRow_diffRow (l : List Nat) (hmem : ∀ b ∈ l, b < 256) :
    predictRow (diffRow l) = l := by
  cases l with
  | nil => rfl
  | cons a rest =>
    simp only [diffRow, predictRow]
    exact congrArg (a :: ·)
      (predictRowGo_diffRowGo rest a (hmem a (by simp))
        (fun x hx => hmem x (by simp [hx])))

theorem applyRows_diffRows (width : Nat) (h : Nat) :
    ∀ data : List Nat, (∀ b ∈ data, b < 256) →
      applyRows width h (diffRows width h data) = data := by
  induction h with
  | zero => intro data _; rfl
  | succ h ih =>
    intro data hmem
    have hlen : (diffRow (data.take width)).length = (data.take width).length :=
      diffRow_length _
    by_cases hw : width ≤ data.length
    · have hlenw : (diffRow (data.take width)).length = width := by
        rw [hlen, List.length_take]; omega
      simp only [diffRows, applyRows]
      rw [List.take_left' hlenw, List.drop_left' hlenw]
      rw [predictRow_diffRow _ (fun b hb => hmem b (List.mem_of_mem_take hb)),
        ih _ (fun b hb => hmem b (List.mem_of_mem_drop hb))]
      exact List.take_append_drop width data
    · have hlt : data.length < width := by omega
      have htake : data.take width = data := List.take_of_length_le (by omega)
      have hdrop : data.drop width = [] := List.drop_eq_nil_of_le (by omega)
      have hdlen : (diffRow data).length ≤ width := by rw [diffRow_length]; omega
      simp only [diffRows, applyRows, htake, hdrop, diffRows_nil, List.append_nil]
      rw [List.take_of_length_le hdlen, List.drop_eq_nil_of_le hdlen, applyRows_nil,
        List.append_nil, predictRow_diffRow _ hmem]

/-- C5: applying the horizontal predictor to the row-wise wrapping discrete
difference of a byte buffer returns the buffer, and on the concrete input
`[1,2,3,4,5,6]` with `width = 3, height = 2` the predictor yields
`[1,3,6,4,9,15]`. -/
theorem predictor_inverts_diff :
    (∀ (data : List Nat) (width height : Nat),
        data.length = width * height → (∀ b ∈ data, b < 256) →
        applyHorizontalPredictor (rowwiseDiff data width height) width height = data)
    ∧ applyHorizontalPredictor [1, 2, 3, 4, 5, 6] 3 2 = [1, 3, 6, 4, 9, 15] := by
  refine ⟨fun data width height _ hmem => ?_, by decide⟩
  exact applyRows_diffRows width height data hmem

/-- C5 witness: the inverse law of `predictor_inverts_diff` applied at
`[1,3,6,4,9,15]` with `width = 3, height = 2` (whose discrete difference is
the concrete predictor input `[1,2,3,4,5,6]` of the claim). -/
theorem predictor_inverts_diff_witness :
    rowwiseDiff [1, 3, 6, 4, 9, 15] 3 2 = [1, 2, 3, 4, 5, 6]
    ∧ applyHorizontalPredictor (rowwiseDiff [1, 3, 6, 4, 9, 15] 3 2) 3 2
        = [1, 3, 6, 4, 9, 15] :=
  ⟨by decide,
    predictor_inverts_diff.1 [1, 3, 6, 4, 9, 15] 3 2 (by decide) (by decide)⟩

/-! ### Tile cache, src/cache.rs

The `DashMap` is modelled as an association list with map semantics (insert
replaces the key, remove drops it), and the `SegQueue` as a FIFO list (push at
the back, pop at the front).  The claim is about single-threaded operation, so
the interleaving-free sequential semantics of the two structures is exact. -/

/-- `DashMap::get` on an association list. -/
def mapLookup (k : Nat × Nat) (l : List ((Nat × Nat) × List Nat)) : Option (List Nat) :=
  (l.find? (fun p => p.1 = k)).map Prod.snd

/-- `DashMap::insert`: the key maps to the new value afterwards. -/
def mapInsert (k : Nat × Nat) (v : List Nat) (l : List ((Nat × Nat) × List Nat)) :
    List ((Nat × Nat) × List Nat) :=
  (k, v) :: l.filter (fun p => ¬ p.1 = k)

/-- `DashMap::remove`: the key is absent afterwards. -/
def mapRemove (k : Nat × Nat) (l : List ((Nat × Nat) × List Nat)) :
    List ((Nat × Nat) × List Nat) :=
  l.filter (fun p => ¬ p.1 = k)

/-- `TileCache` state: concurrent map, advisory FIFO queue, clamped bound. -/
structure TileCache where
  cache : List ((Nat × Nat) × List Nat)
  lru : List (Nat × Nat)
  maxTiles : Nat

/-- `TileCache::new`: `max_tiles` is clamped to at least 1. -/
def TileCache.new (maxTiles : Nat) : TileCache :=
  { cache := [], lru := [], maxTiles := Nat.max maxTiles 1 }

/-- `TileCache::get`: on a hit the key is pushed onto the queue again
(the duplicate push of the approximate-LRU design). -/
def TileCache.get (c : TileCache) (ifdIndex tileIndex : Nat) :
    Option (List Nat) × TileCache :=
  match mapLookup (ifdIndex, tileIndex) c.cache with
  | some v => (some v, { c with lru := c.lru ++ [(ifdIndex, tileIndex)] })
  | none => (none, c)

/-- Eviction loop of `TileCache::put`: while the map holds at least
`max_tiles` entries, pop a key from the queue and remove it from the map;
stop early (`break`) only when the queue is exhausted. -/
def evictLoop (maxTiles : Nat) : List (Nat × Nat) → List ((Nat × Nat) × List Nat) →
    List ((Nat × Nat) × List Nat) × List (Nat × Nat)
  | [], cache => (cache, [])
  | k :: rest, cache =>
    if maxTiles ≤ cache.length then evictLoop maxTiles rest (mapRemove k cache)
    else (cache, k :: rest)

/-- `TileCache::put`: evict, then insert the entry and push its key. -/
def TileCache.put (c : TileCache) (ifdIndex tileIndex : Nat) (data : List Nat) :
    TileCache :=
  let key := (ifdIndex, tileIndex)
  let r := evictLoop c.maxTiles c.lru c.cache
  { c with cache := mapInsert key data r.1, lru := r.2 ++ [key] }

/-- `TileCache::clear`. -/
def TileCache.clear (c : TileCache) : TileCache :=
  { c with cache := [], lru := [] }

/-- `TileCache::len`. -/
def TileCache.len (c : TileCache) : Nat := c.cache.length

/-- A single-threaded cache operation. -/
inductive CacheOp where
  | get : Nat → Nat → CacheOp
  | put : Nat → Nat → List Nat → CacheOp
  | clear : CacheOp

/-- Run one operation (the result of a `get` is discarded). -/
def TileCache.step (c : TileCache) : CacheOp → TileCache
  | .get i t => (c.get i t).2
  | .put i t d => c.put i t d
  | .clear => c.clear

/-- Run a finite sequence of operations. -/
def TileCache.run (c : TileCache) (ops : List CacheOp) : TileCache :=
  ops.foldl TileCache.step c

/-- The structural invariant that makes the bound work: every key of the map
occurs somewhere in the advisory queue. -/
def CacheInv (c : TileCache) : Prop :=
  ∀ p ∈ c.cache, p.1 ∈ c.lru

theorem evictLoop_inv (maxTiles : Nat) :
    ∀ (lru : List (Nat × Nat)) (cache : List ((Nat × Nat) × List Nat)),
      (∀ p ∈ cache, p.1 ∈ lru) →
      (∀ p ∈ (evictLoop maxTiles lru cache).1, p.1 ∈ (evictLoop maxTiles lru cache).2) := by
  intro lru
  induction lru with
  | nil => intro cache hinv; simpa [evictLoop] using hinv
  | cons k rest ih =>
    intro cache hinv
    by_cases hfull : maxTiles ≤ cache.length
    · simp only [evictLoop, if_pos hfull]
      refine ih (mapRemove k cache) ?_
      intro p hp
      have hpc : p ∈ cache := List.mem_of_mem_filter hp
      have hpk : ¬ p.1 = k := by
        have := List.of_mem_filter hp
        simpa using this
      have := hinv p hpc
      simp only [List.mem_cons] at this
      exact this.resolve_left hpk
    · simp only [evictLoop, if_neg hfull]
      exact hinv

theorem evictLoop_length (maxTiles : Nat) (hmax : 1 ≤ maxTiles) :
    ∀ (lru : List (Nat × Nat)) (cache : List ((Nat × Nat) × List Nat)),
      (∀ p ∈ cache, p.1 ∈ lru) →
      (evictLoop maxTiles lru cache).1.length < maxTiles := by
  intro lru
  induction lru with
  | nil =>
    intro cache hinv
    simp only [evictLoop]
    match cache, hinv with
    | [], _ => simpa using hmax
    | p :: rest, hinv => exact absurd (hinv p (by simp)) (by simp)
  | cons k rest ih =>
    intro cache hinv
    by_cases hfull : maxTiles ≤ cache.length
    · simp only [evictLoop, if_pos hfull]
      refine ih (mapRemove k cache) ?_
      intro p hp
      have hpc : p ∈ cache := List.mem_of_mem_filter hp
      have hpk : ¬ p.1 = k := by
        have := List.of_mem_filter hp
        simpa using this
      have := hinv p hpc
      simp only [List.mem_cons] at this
      exact this.resolve_left hpk
    · simp only [evictLoop, if_neg hfull]
      omega

theorem put_inv (c : TileCache) (i t : Nat) (d : List Nat) (hinv : CacheInv c) :
    CacheInv (c.put i t d) := by
  intro p hp
  simp only [TileCache.put, mapInsert, List.mem_cons] at hp
  rcases hp with hp | hp
  · subst hp; simp [TileCache.put]
  · have hpe : p ∈ (evictLoop c.maxTiles c.lru c.cache).1 := List.mem_of_mem_filter hp
    have := evictLoop_inv c.maxTiles c.lru c.cache hinv p hpe
    simp only [TileCache.put, List.mem_append]
    exact Or.inl this

theorem get_inv (c : TileCache) (i t : Nat) (hinv : CacheInv c) :
    CacheInv (c.get i t).2 := by
  unfold TileCache.get
  cases hm : mapLookup (i, t) c.cache with
  | none => exact hinv
  | some v =>
    simp only [hm]
    intro p hp
    exact List.mem_append.mpr (Or.inl (hinv p hp))

theorem step_inv (c : TileCache) (op : CacheOp) (hinv : CacheInv c) :
    CacheInv (c.step op) := by
  cases op with
  | get i t => exact get_inv c i t hinv
  | put i t d => exact put_inv c i t d hinv
  | clear => intro p hp; simp [TileCache.step, TileCache.clear] at hp

theorem step_maxTiles (c : TileCache) (op : CacheOp) :
    (c.step op).maxTiles = c.maxTiles := by
  cases op with
  | get i t =>
    simp only [TileCache.step, TileCache.get]
    cases mapLookup (i, t) c.cache <;> rfl
  | put i t d => rfl
  | clear => rfl

theorem run_inv (ops : List CacheOp) :
    ∀ c : TileCache, CacheInv c → CacheInv (c.run ops) := by
  induction ops with
  | nil => intro c h; exact h
  | cons op ops ih =>
    intro c h
    exact ih (c.step op) (step_inv c op h)

theorem run_maxTiles (ops : List CacheOp) :
    ∀ c : TileCache, (c.run ops).maxTiles = c.maxTiles := by
  induction ops with
  | nil => intro c; rfl
  | cons op ops ih =>
    intro c
    rw [TileCache.run, List.foldl_cons, ← TileCache.run, ih, step_maxTiles]

theorem put_len_le (c : TileCache) (i t : Nat) (d : List Nat)
    (hinv : CacheInv c) (hmax : 1 ≤ c.maxTiles) :
    (c.put i t d).len ≤ c.maxTiles := by
  have hlt := evictLoop_length c.maxTiles hmax c.lru c.cache hinv
  have : (mapInsert (i, t) d (evictLoop c.maxTiles c.lru c.cache).1).length
      ≤ (evictLoop c.maxTiles c.lru c.cache).1.length + 1 := by
    simp only [mapInsert, List.length_cons]
    have := List.length_filter_le (fun p => ¬ p.1 = (i, t))
      (evictLoop c.maxTiles c.lru c.cache).1
    omega
  simp only [TileCache.len, TileCache.put]
  omega

/-- C3: for every requested bound (clamped to at least 1 by
`TileCache::new`) and every finite single-threaded sequence of `get`, `put`
and `clear` operations, the number of cached entries immediately after any
`put` completes is at most the clamped bound.  (Every `put` inside a sequence
is the final operation of some prefix, so this statement covers each one.) -/
theorem cache_len_le_max_tiles (maxTiles : Nat) (ops : List CacheOp)
    (i t : Nat) (d : List Nat) :
    (((TileCache.new maxTiles).run ops).put i t d).len ≤ Nat.max maxTiles 1 := by
  have hinv0 : CacheInv (TileCache.new maxTiles) := by
    intro p hp; simp [TileCache.new] at hp
  have hinv := run_inv ops (TileCache.new maxTiles) hinv0
  have hmaxeq : ((TileCache.new maxTiles).run ops).maxTiles = Nat.max maxTiles 1 :=
    run_maxTiles ops (TileCache.new maxTiles)
  have hmax : 1 ≤ ((TileCache.new maxTiles).run ops).maxTiles := by
    rw [hmaxeq]; exact le_max_right _ _
  have := put_len_le ((TileCache.new maxTiles).run ops) i t d hinv hmax
  omega

/-! ### IFD structures, src/formats/tiff/ifd.rs and src/types.rs -/

/-- Image or tile dimensions (src/types.rs `Dimensions`). -/
structure Dimensions where
  width : Nat
  height : Nat
  deriving DecidableEq

/-- One IFD entry: tag, field type, count, inline value or offset. -/
structure IFDEntry where
  tag : Nat
  fieldType : Nat
  count : Nat
  valueOffset : Nat
  deriving DecidableEq

/-- `IFDEntry::field_type_size` over the constants of
src/formats/tiff/tags.rs `field_types` (BYTE/ASCII/SBYTE/UNDEFINED = 1,
SHORT/SSHORT = 2, LONG/SLONG/FLOAT = 4,
RATIONAL/SRATIONAL/DOUBLE/LONG8/SLONG8/IFD8 = 8, anything else 1). -/
def IFDEntry.fieldTypeSize (e : IFDEntry) : Nat :=
  match e.fieldType with
  | 1 | 2 | 6 | 7 => 1
  | 3 | 8 => 2
  | 4 | 9 | 11 => 4
  | 5 | 10 | 12 | 16 | 17 | 18 => 8
  | _ => 1

/-- An IFD: number, file offset and its entries in insertion order. -/
structure IFD where
  number : Nat
  offset : Nat
  entries : List IFDEntry
  deriving DecidableEq

/-- `IFD::get_entry`: the `tag_map` records, for each tag, the index of the
most recently added entry with that tag, so lookup returns the last such
entry. -/
def IFD.getEntry (ifd : IFD) (tag : Nat) : Option IFDEntry :=
  ifd.entries.reverse.find? (fun e => e.tag == tag)

/-- `IFD::get_tag_value` (the inline `value_offset` field). -/
def IFD.getTagValue (ifd : IFD) (tag : Nat) : Option Nat :=
  (ifd.getEntry tag).map IFDEntry.valueOffset

/-- `IFD::dimensions` (tags 256 IMAGE_WIDTH, 257 IMAGE_LENGTH). -/
def IFD.dimensions (ifd : IFD) : Option Dimensions := do
  let w ← ifd.getTagValue 256
  let h ← ifd.getTagValue 257
  pure ⟨w, h⟩

/-- `IFD::compression` (tag 259). -/
def IFD.compressionTag (ifd : IFD) : Option Nat := ifd.getTagValue 259

/-- `IFD::bits_per_sample` (tag 258). -/
def IFD.bitsPerSample (ifd : IFD) : Option Nat := ifd.getTagValue 258

/-- `IFD::is_tiled` (tag 322 TILE_WIDTH present). -/
def IFD.isTiled (ifd : IFD) : Bool := (ifd.getEntry 322).isSome

/-- `IFD::tile_dimensions` (tags 322 TILE_WIDTH, 323 TILE_LENGTH). -/
def IFD.tileDimensions (ifd : IFD) : Option Dimensions := do
  let w ← ifd.getTagValue 322
  let h ← ifd.getTagValue 323
  pure ⟨w, h⟩

/-! ### Pixel coordinate calculations, src/formats/tiff/reader/pixels.rs -/

/-- `PixelReader::validate_tiled_access`. -/
def validateTiledAccess (ifd : IFD) : Except Err Unit :=
  if ifd.isTiled then .ok () else .error (.unsupported "Only tiled images supported")

/-- `PixelReader::validate_pixel_bounds`. -/
def validatePixelBounds (ifd : IFD) (x y : Nat) : Except Err Unit :=
  match ifd.dimensions with
  | none => .error (.invalidFormat "Missing dimensions")
  | some dims =>
    if dims.width ≤ x ∨ dims.height ≤ y then
      .error (.outOfBounds "Pixel outside image bounds")
    else .ok ()

/-- `PixelReader::calculate_tile_index`: `(y / Th) * W.div_ceil(Tw) + x / Tw`
in wrapping `u64` arithmetic; a zero tile dimension makes the Rust division
(or `div_ceil`) panic. -/
def calculateTileIndex (ifd : IFD) (x y : Nat) : Except Err Nat :=
  match ifd.dimensions with
  | none => .error (.invalidFormat "Missing dimensions")
  | some dims =>
    match ifd.tileDimensions with
    | none => .error (.invalidFormat "Missing tile dimensions")
    | some tileDims =>
      if tileDims.width = 0 ∨ tileDims.height = 0 then
        .error (.rustPanic "attempt to divide by zero")
      else
        let tileX := x / tileDims.width
        let tileY := y / tileDims.height
        let tilesAcross := dims.width / tileDims.width +
          (if dims.width % tileDims.width ≠ 0 then 1 else 0)
        .ok (wrap64 (wrap64 (tileY * tilesAcross) + tileX))

/-- `PixelReader::calculate_pixel_index`: `(y % Th) * Tw + (x % Tw)` in
wrapping `usize` arithmetic; a zero tile dimension panics. -/
def calculatePixelIndex (ifd : IFD) (x y : Nat) : Except Err Nat :=
  match ifd.tileDimensions with
  | none => .error (.invalidFormat "Missing tile dimensions")
  | some tileDims =>
    if tileDims.width = 0 ∨ tileDims.height = 0 then
      .error (.rustPanic "attempt to divide by zero")
    else
      .ok (wrap64 (wrap64 ((y % tileDims.height) * tileDims.width) + x % tileDims.width))

/-- `u64::div_ceil` agrees with the ceiling division `(W + Tw - 1) / Tw`. -/
theorem divCeil_eq (W Tw : Nat) (h : 1 ≤ Tw) :
    W / Tw + (if W % Tw ≠ 0 then 1 else 0) = (W + Tw - 1) / Tw := by
  have hmod := Nat.div_add_mod W Tw
  by_cases hr : W % Tw = 0
  · simp only [hr, ne_eq, not_true_eq_false, if_false, Nat.add_zero]
    have hW : W = Tw * (W / Tw) := by omega
    have : W + Tw - 1 = Tw - 1 + (W / Tw) * Tw := by
      rw [Nat.mul_comm] at hW; omega
    rw [this, Nat.add_mul_div_right _ _ (by omega : 0 < Tw),
      Nat.div_eq_of_lt (by omega : Tw - 1 < Tw), Nat.zero_add]
  · simp only [ne_eq, hr, not_false_eq_true, if_true]
    have hlt : W % Tw < Tw := Nat.mod_lt _ (by omega)
    have : W + Tw - 1 = W % Tw - 1 + (W / Tw + 1) * Tw := by
      have h1 : Tw * (W / Tw) = (W / Tw) * Tw := Nat.mul_comm _ _
      have h2 : (W / Tw + 1) * Tw = (W / Tw) * Tw + Tw := by ring
      omega
    rw [this, Nat.add_mul_div_right _ _ (by omega : 0 < Tw),
      Nat.div_eq_of_lt (by omega : W % Tw - 1 < Tw), Nat.zero_add]

/-- Concrete IFD of the claim scenario: `W = H = 512`, `Tw = Th = 256`. -/
def ifd512 : IFD :=
  ⟨0, 0, [⟨256, 4, 1, 512⟩, ⟨257, 4, 1, 512⟩, ⟨322, 4, 1, 256⟩, ⟨323, 4, 1, 256⟩]⟩

/-- C6: on every tiled IFD with nonzero tile dimensions and in-bounds
coordinates (with realistic 32-bit-bounded extents so that the `u64`
arithmetic cannot wrap), `calculate_tile_index` returns
`(y/Th)·⌈W/Tw⌉ + x/Tw`, `calculate_pixel_index` returns
`(y mod Th)·Tw + (x mod Tw)`, and the pair can be inverted back to `(x, y)`;
the claimed `512/256` scenario produces tile ids 0, 0, 1, 2, 3. -/
theorem tile_addressing :
    (∀ (ifd : IFD) (W H Tw Th x y : Nat),
        ifd.dimensions = some ⟨W, H⟩ →
        ifd.tileDimensions = some ⟨Tw, Th⟩ →
        1 ≤ Tw → 1 ≤ Th →
        W ≤ 2 ^ 32 → H ≤ 2 ^ 32 → Tw ≤ 2 ^ 32 → Th ≤ 2 ^ 32 →
        x < W → y < H →
        calculateTileIndex ifd x y
            = .ok ((y / Th) * ((W + Tw - 1) / Tw) + x / Tw)
        ∧ calculatePixelIndex ifd x y = .ok ((y % Th) * Tw + x % Tw)
        ∧ (((y / Th) * ((W + Tw - 1) / Tw) + x / Tw) % ((W + Tw - 1) / Tw)) * Tw
            + ((y % Th) * Tw + x % Tw) % Tw = x
        ∧ (((y / Th) * ((W + Tw - 1) / Tw) + x / Tw) / ((W + Tw - 1) / Tw)) * Th
            + ((y % Th) * Tw + x % Tw) / Tw = y)
    ∧ calculateTileIndex ifd512 0 0 = .ok 0
    ∧ calculateTileIndex ifd512 255 255 = .ok 0
    ∧ calculateTileIndex ifd512 256 0 = .ok 1
    ∧ calculateTileIndex ifd512 0 256 = .ok 2
    ∧ calculateTileIndex ifd512 256 256 = .ok 3 := by
  refine ⟨?_, by decide, by decide, by decide, by decide, by decide⟩
  intro ifd W H Tw Th x y hdim htdim hTw hTh hW hH hTwB hThB hx hy
  have hTw0 : 0 < Tw := hTw
  have hTh0 : 0 < Th := hTh
  set A := (W + Tw - 1) / Tw with hA
  -- ceil bound: W ≤ Tw * A
  have hdmA := Nat.div_add_mod (W + Tw - 1) Tw
  rw [← hA] at hdmA
  have hmA : (W + Tw - 1) % Tw < Tw := Nat.mod_lt _ hTw0
  have hWA : W ≤ Tw * A := by omega
  -- x / Tw < A
  have hxA : x / Tw < A := by
    have hxW : x < Tw * A := lt_of_lt_of_le hx hWA
    exact Nat.div_lt_of_lt_mul (by omega)
  have hA0 : 0 < A := by
    rcases Nat.eq_zero_or_pos A with h0 | h0
    · rw [h0, Nat.mul_zero] at hWA; omega
    · exact h0
  -- A ≤ W (monotonicity of ceiling division for Tw ≥ 1)
  have hAW : A ≤ W := by
    have hlt1 : W + Tw - 1 < Tw * (W + 1) := by
      have : W ≤ W * Tw := Nat.le_mul_of_pos_right _ hTw0
      have h1 : Tw * (W + 1) = W * Tw + Tw := by ring
      omega
    have hlt2 := Nat.div_lt_of_lt_mul hlt1
    rw [← hA] at hlt2
    omega
  -- no wrapping in the tile index
  have htyb : y / Th ≤ 2 ^ 32 - 1 := by
    have : y / Th ≤ y := Nat.div_le_self _ _
    omega
  have htile_small : (y / Th) * A + x / Tw < 18446744073709551616 := by
    have h1 : (y / Th) * A ≤ (2 ^ 32 - 1) * 2 ^ 32 :=
      Nat.mul_le_mul htyb (le_trans hAW hW)
    have h2 : x / Tw ≤ x := Nat.div_le_self _ _
    have h3 : x < 2 ^ 32 := lt_of_lt_of_le hx hW
    have h4 : (2 ^ 32 - 1) * 2 ^ 32 + 2 ^ 32 = 18446744073709551616 := by norm_num
    omega
  -- no wrapping in the pixel index
  have hpix_small : (y % Th) * Tw + x % Tw < 18446744073709551616 := by
    have h1 : y % Th ≤ 2 ^ 32 - 1 := by
      have := Nat.mod_lt y hTh0
      omega
    have h2 : (y % Th) * Tw ≤ (2 ^ 32 - 1) * 2 ^ 32 := Nat.mul_le_mul h1 hTwB
    have h3 : x % Tw < Tw := Nat.mod_lt _ hTw0
    have h4 : (2 ^ 32 - 1) * 2 ^ 32 + 2 ^ 32 = 18446744073709551616 := by norm_num
    omega
  have hTwne : ¬ (Tw = 0 ∨ Th = 0) := by omega
  refine ⟨?_, ?_, ?_, ?_⟩
  · simp only [calculateTileIndex, hdim, htdim, if_neg hTwne]
    rw [divCeil_eq W Tw hTw, ← hA]
    have hinner : wrap64 ((y / Th) * A) = (y / Th) * A :=
      Nat.mod_eq_of_lt (lt_of_le_of_lt (Nat.le_add_right _ _) htile_small)
    rw [hinner]
    unfold wrap64
    rw [Nat.mod_eq_of_lt htile_small]
  · simp only [calculatePixelIndex, htdim, if_neg hTwne]
    have hinner : wrap64 ((y % Th) * Tw) = (y % Th) * Tw :=
      Nat.mod_eq_of_lt (lt_of_le_of_lt (Nat.le_add_right _ _) hpix_small)
    rw [hinner]
    unfold wrap64
    rw [Nat.mod_eq_of_lt hpix_small]
  · have hmodA : ((y / Th) * A + x / Tw) % A = x / Tw := by
      rw [Nat.mul_comm (y / Th) A, Nat.mul_add_mod, Nat.mod_eq_of_lt hxA]
    have hmodTw : ((y % Th) * Tw + x % Tw) % Tw = x % Tw := by
      rw [Nat.mul_comm (y % Th) Tw, Nat.mul_add_mod,
        Nat.mod_eq_of_lt (Nat.mod_lt _ hTw0)]
    rw [hmodA, hmodTw]
    have hdm := Nat.div_add_mod x Tw
    rw [Nat.mul_comm] at hdm
    omega
  · have hdivA : ((y / Th) * A + x / Tw) / A = y / Th := by
      rw [Nat.mul_comm (y / Th) A, Nat.mul_add_div hA0,
        Nat.div_eq_of_lt hxA, Nat.add_zero]
    have hdivTw : ((y % Th) * Tw + x % Tw) / Tw = y % Th := by
      rw [Nat.mul_comm (y % Th) Tw, Nat.mul_add_div hTw0,
        Nat.div_eq_of_lt (Nat.mod_lt _ hTw0), Nat.add_zero]
    rw [hdivA, hdivTw]
    have hdm := Nat.div_add_mod y Th
    rw [Nat.mul_comm] at hdm
    omega

/-- C6 witness: the universal part of `tile_addressing` applied to the
concrete `512/256` IFD at the coordinate `(256, 256)`. -/
theorem tile_addressing_witness :
    calculateTileIndex ifd512 256 256 = .ok ((256 / 256) * ((512 + 256 - 1) / 256) + 256 / 256)
    ∧ calculatePixelIndex ifd512 256 256 = .ok ((256 % 256) * 256 + 256 % 256) := by
  have h := tile_addressing.1 ifd512 512 512 256 256 256 256
    (by decide) (by decide) (by decide) (by decide)
    (by norm_num) (by norm_num) (by norm_num) (by norm_num)
    (by decide) (by decide)
  exact ⟨h.1, h.2.1⟩

/-! ### Compression dispatch, src/compression/mod.rs -/

/-- External or un-modelled codecs (LZW bit-level code, flate2, jpeg-decoder)
as abstract decompression functions; see the file header. -/
structure CodecEnv where
  lzw : List Nat → Except Err (List Nat)
  deflate : List Nat → Except Err (List Nat)
  jpeg : List Nat → Except Err (List Nat)

/-- A codec environment whose abstract codecs always refuse; used only to
instantiate concrete scenarios that never reach an abstract codec. -/
def refusingEnv : CodecEnv :=
  { lzw := fun _ => .error (.unsupported "LZW stub")
    deflate := fun _ => .error (.unsupported "Deflate stub")
    jpeg := fun _ => .error (.unsupported "JPEG stub") }

/-- `enum Compression`. -/
inductive Compression where
  | none : Compression
  | deflate : Compression
  | lzw : Compression
  | packBits : Compression
  | jpeg : Compression
  deriving DecidableEq

/-- `Compression::from_tag` (tags 1, 5, 8, 32773, 7; otherwise Unsupported). -/
def Compression.fromTag (value : Nat) : Except Err Compression :=
  match value with
  | 1 => .ok .none
  | 5 => .ok .lzw
  | 8 => .ok .deflate
  | 32773 => .ok .packBits
  | 7 => .ok .jpeg
  | _ => .error (.unsupported "Compression type")

/-- `Compression::decompress`. -/
def Compression.decompress (env : CodecEnv) : Compression → List Nat → Except Err (List Nat)
  | .none, data => .ok data
  | .deflate, data => env.deflate data
  | .lzw, data => env.lzw data
  | .packBits, data => packbitsDecompress data
  | .jpeg, data => env.jpeg data

/-! ### Reader state and open, src/formats/tiff/reader/mod.rs -/

/-- The state of a `TiffReader` relevant to the modelled paths: the file, the
detected byte order, the classic/BigTIFF flag, whether the memory map was
created, the buffered-reader cursor, the tile cache and the current IFD
index.  The prefetch predictor and pool are `None` after `open` and stay so
here. -/
structure TiffReaderState where
  file : TFile
  byteOrder : ByteOrder
  isBigTiff : Bool
  useMmap : Bool
  pos : Nat
  cache : TileCache
  currentIfdIndex : Nat

/-- The `Option<Arc<Mmap>>` of the reader: the whole file when enabled. -/
def mmapOf (r : TiffReaderState) : Option TFile :=
  if r.useMmap then some r.file else Option.none

/-- `TiffReader::open_with_options`: detect the byte order from the first two
bytes (`ByteOrder::detect` returns an `io::Error` for anything except
`II`/`MM`, which the `?` operator converts to `Error::Io`), read the magic
(42 classic / 43 BigTIFF, otherwise `InvalidMagic`), check the BigTIFF offset
size, and build the reader with a fresh cache.  `File::open` and `Mmap::map`
failures are environmental and outside the model (the file content is
given). -/
def openWithOptions (file : TFile) (useMmap : Bool) (cacheSize : Nat) :
    Except Err TiffReaderState := do
  let magicBytes ← readExact file 0 2
  let bo ←
    if magicBytes = [73, 73] then .ok ByteOrder.littleEndian
    else if magicBytes = [77, 77] then .ok ByteOrder.bigEndian
    else .error (.ioError "Invalid byte order magic bytes")
  let magic ← readUInt bo 2 file 2
  let isBig ←
    if magic = 42 then .ok false
    else if magic = 43 then .ok true
    else .error (.invalidMagic magic)
  let pos ←
    if isBig then do
      let offsetSize ← readUInt bo 2 file 4
      if offsetSize ≠ 8 then
        .error (.invalidFormat "Invalid BigTIFF offset size")
      else do
        let _reserved ← readUInt bo 2 file 6
        .ok 8
    else
      .ok 4
  .ok { file := file, byteOrder := bo, isBigTiff := isBig, useMmap := useMmap,
        pos := pos, cache := TileCache.new cacheSize, currentIfdIndex := 0 }

/-- Boolean classifier: is this result an `InvalidByteOrder` error? -/
def isInvalidByteOrderErr {α : Type} : Except Err α → Bool
  | .error (.invalidByteOrder _) => true
  | _ => false

/-- A concrete 8-byte file starting with the bytes `XX` (0x58 0x58). -/
def xxFile : TFile :=
  { byteAt := fun p => if p < 2 then 88 else 0, size := 8 }

/-- C7 counterexample: on the concrete file starting `XX`, `open` fails with
an `Io` error — not with `InvalidByteOrder` as the claim states (that variant
of `enum Error` is never constructed by the crate). -/
theorem open_invalid_magic_io_counterexample :
    openWithOptions xxFile true 256
        = .error (.ioError "Invalid byte order magic bytes")
    ∧ isInvalidByteOrderErr (openWithOptions xxFile true 256) = false := by
  constructor <;> rfl

/-- C7 (amended): for every file of at least two bytes whose first two bytes
are neither `II` nor `MM`, `open_with_options` fails with an `Io` error (the
`io::Error` of `ByteOrder::detect` lifted by `?`) and in particular never
succeeds and never produces `InvalidByteOrder`. -/
theorem open_rejects_unknown_byte_order (file : TFile) (useMmap : Bool)
    (cacheSize : Nat) (hsize : 2 ≤ file.size)
    (hii : ¬ (file.byteAt 0 = 73 ∧ file.byteAt 1 = 73))
    (hmm : ¬ (file.byteAt 0 = 77 ∧ file.byteAt 1 = 77)) :
    openWithOptions file useMmap cacheSize
      = .error (.ioError "Invalid byte order magic bytes") := by
  have hread : readExact file 0 2 = .ok [file.byteAt 0, file.byteAt 1] := by
    unfold readExact
    rw [if_pos (by omega)]
    rfl
  have hne1 : ¬ [file.byteAt 0, file.byteAt 1] = [73, 73] := by
    intro h
    exact hii ⟨by injection h, by injection h with _ h2; injection h2⟩
  have hne2 : ¬ [file.byteAt 0, file.byteAt 1] = [77, 77] := by
    intro h
    exact hmm ⟨by injection h, by injection h with _ h2; injection h2⟩
  unfold openWithOptions
  rw [hread]
  simp only [Bind.bind, Except.bind, if_neg hne1, if_neg hne2]

/-- C7 witness: the amended theorem applied to the concrete `XX` file. -/
theorem open_rejects_unknown_byte_order_witness :
    openWithOptions xxFile false 256
      = .error (.ioError "Invalid byte order magic bytes") :=
  open_rejects_unknown_byte_order xxFile false 256 (by decide) (by decide) (by decide)

/-! ### Reading the IFD chain, src/formats/tiff/reader/mod.rs `read()` -/

/-- Entry count at an IFD offset (`read_entry_count_at`, also the head of
`read_ifd`): u64 for BigTIFF, u16 classic. -/
def readEntryCount (bo : ByteOrder) (isBig : Bool) (f : TFile) (offset : Nat) :
    Except Err Nat :=
  if isBig then readUInt bo 8 f offset else readUInt bo 2 f offset

/-- `read_next_ifd_offset`: u64 for BigTIFF, u32 classic. -/
def readNextIfdOffset (bo : ByteOrder) (isBig : Bool) (f : TFile) (entriesEnd : Nat) :
    Except Err Nat :=
  if isBig then readUInt bo 8 f entriesEnd else readUInt bo 4 f entriesEnd

/-- `calculate_entries_end`: `ifd_offset + header_size + entry_count * entry_size`
in `u64` arithmetic. -/
def calculateEntriesEnd (isBig : Bool) (ifdOffset entryCount : Nat) : Nat :=
  wrap64 (ifdOffset + (if isBig then 8 else 2)
    + entryCount * (if isBig then 20 else 12))

/-- One 12-byte (classic) or 20-byte (BigTIFF) IFD entry read sequentially:
`tag:u16, type:u16, count:u32/u64, value:u32/u64`. -/
def readEntryAt (bo : ByteOrder) (isBig : Bool) (f : TFile) (off : Nat) :
    Except Err IFDEntry := do
  let tag ← readUInt bo 2 f off
  let fieldType ← readUInt bo 2 f (off + 2)
  let count ← readUInt bo (if isBig then 8 else 4) f (off + 4)
  let valueOffset ← readUInt bo (if isBig then 8 else 4) f
    (off + (if isBig then 12 else 8))
  .ok ⟨tag, fieldType, count, valueOffset⟩

/-- The entry loop of `read_ifd`, entries packed back to back. -/
def readEntriesGo (bo : ByteOrder) (isBig : Bool) (f : TFile) :
    Nat → Nat → Except Err (List IFDEntry)
  | 0, _ => .ok []
  | n + 1, off => do
    let e ← readEntryAt bo isBig f off
    let rest ← readEntriesGo bo isBig f n (off + (if isBig then 20 else 12))
    .ok (e :: rest)

/-- `read_ifd` without the IFD number: entry count then the entries. -/
def readIFDRaw (bo : ByteOrder) (isBig : Bool) (f : TFile) (offset : Nat) :
    Except Err (List IFDEntry) := do
  let entryCount ← readEntryCount bo isBig f offset
  readEntriesGo bo isBig f entryCount (offset + (if isBig then 8 else 2))

/-- `read_ifd(number, offset)`. -/
def readIFD (bo : ByteOrder) (isBig : Bool) (f : TFile) (number offset : Nat) :
    Except Err IFD :=
  (readIFDRaw bo isBig f offset).map fun entries => ⟨number, offset, entries⟩

/-- The `while next_ifd_offset != 0` loop of `TiffReader::read`.  The source
counts upward with `ifd_number` and errors on `ifd_number > 1000`; here the
loop recurses on `left = 1001 - ifd_number`, so the guard `ifd_number > 1000`
is exactly `left = 0` and the recursion is structural.  The body mirrors the
source: `read_ifd`, `read_entry_count_at` (a second read of the same count),
`calculate_entries_end`, `read_next_ifd_offset`, then the next iteration. -/
def tiffReadLoop (bo : ByteOrder) (isBig : Bool) (f : TFile) :
    Nat → Nat → Except Err (List IFD)
  | left, offset =>
    if offset = 0 then .ok []
    else
      match left with
      | 0 => .error (.invalidFormat "Too many IFDs")
      | left2 + 1 =>
        match readIFD bo isBig f (1001 - (left2 + 1)) offset with
        | .error e => .error e
        | .ok ifd =>
          match readEntryCount bo isBig f offset with
          | .error e => .error e
          | .ok entryCount =>
            match readNextIfdOffset bo isBig f
                (calculateEntriesEnd isBig offset entryCount) with
            | .error e => .error e
            | .ok next =>
              match tiffReadLoop bo isBig f left2 next with
              | .error e => .error e
              | .ok rest => .ok (ifd :: rest)

/-- `read_first_ifd_offset`, at the reader cursor left by `open`. -/
def readFirstIfdOffset (r : TiffReaderState) : Except Err Nat :=
  if r.isBigTiff then readUInt r.byteOrder 8 r.file r.pos
  else readUInt r.byteOrder 4 r.file r.pos

/-- `TiffReader::read`: first offset, then the IFD chain walk. -/
def tiffRead (r : TiffReaderState) : Except Err (List IFD) :=
  match readFirstIfdOffset r with
  | .error e => .error e
  | .ok firstOffset => tiffReadLoop r.byteOrder r.isBigTiff r.file 1001 firstOffset

/-- The IFD chain starting at `offset` terminates (reaches a zero next-IFD
offset) after exactly `k` successfully parsed IFDs. -/
inductive ChainEnds (bo : ByteOrder) (isBig : Bool) (f : TFile) : Nat → Nat → Prop where
  | done : ChainEnds bo isBig f 0 0
  | step {offset k next cnt : Nat} {entries : List IFDEntry} :
      offset ≠ 0 →
      readIFDRaw bo isBig f offset = .ok entries →
      readEntryCount bo isBig f offset = .ok cnt →
      readNextIfdOffset bo isBig f (calculateEntriesEnd isBig offset cnt) = .ok next →
      ChainEnds bo isBig f next k →
      ChainEnds bo isBig f offset (k + 1)

/-- The IFD chain starting at `offset` admits at least `m` successful parse
steps, all from nonzero offsets (so the chain has not yet terminated). -/
inductive ChainRuns (bo : ByteOrder) (isBig : Bool) (f : TFile) : Nat → Nat → Prop where
  | zero (offset : Nat) : ChainRuns bo isBig f offset 0
  | step {offset m next cnt : Nat} {entries : List IFDEntry} :
      offset ≠ 0 →
      readIFDRaw bo isBig f offset = .ok entries →
      readEntryCount bo isBig f offset = .ok cnt →
      readNextIfdOffset bo isBig f (calculateEntriesEnd isBig offset cnt) = .ok next →
      ChainRuns bo isBig f next m →
      ChainRuns bo isBig f offset (m + 1)

theorem tiffReadLoop_length (bo : ByteOrder) (isBig : Bool) (f : TFile) :
    ∀ (left : Nat) (offset : Nat) (l : List IFD),
      tiffReadLoop bo isBig f left offset = .ok l → l.length ≤ left := by
  intro left
  induction left with
  | zero =>
    intro offset l h
    unfold tiffReadLoop at h
    split at h
    · cases h; simp
    · exact absurd h (by simp)
  | succ left2 ih =>
    intro offset l h
    unfold tiffReadLoop at h
    by_cases h0 : offset = 0
    · rw [if_pos h0] at h
      cases h
      simp
    · rw [if_neg h0] at h
      cases hIfd : readIFD bo isBig f (1001 - (left2 + 1)) offset with
      | error e =>
        simp only [hIfd] at h
        exact absurd h (by simp)
      | ok ifd =>
        simp only [hIfd] at h
        cases hCnt : readEntryCount bo isBig f offset with
        | error e =>
          simp only [hCnt] at h
          exact absurd h (by simp)
        | ok cnt =>
          simp only [hCnt] at h
          cases hNext : readNextIfdOffset bo isBig f
              (calculateEntriesEnd isBig offset cnt) with
          | error e =>
            simp only [hNext] at h
            exact absurd h (by simp)
          | ok nx =>
            simp only [hNext] at h
            cases hRest : tiffReadLoop bo isBig f left2 nx with
            | error e =>
              simp only [hRest] at h
              exact absurd h (by simp)
            | ok rest =>
              simp only [hRest] at h
              cases h
              have := ih nx rest hRest
              simp only [List.length_cons]
              omega

theorem chainEnds_readLoop (bo : ByteOrder) (isBig : Bool) (f : TFile)
    {offset k : Nat} (hc : ChainEnds bo isBig f offset k) :
    ∀ left, k ≤ left →
      ∃ l, tiffReadLoop bo isBig f left offset = .ok l ∧ l.length = k := by
  induction hc with
  | done =>
    intro left _
    refine ⟨[], ?_, rfl⟩
    unfold tiffReadLoop
    simp
  | @step offset k next cnt entries h0 hraw hcnt hnext _ ih =>
    intro left hk
    match left, hk with
    | left2 + 1, hk =>
      obtain ⟨rest, hrest, hlen⟩ := ih left2 (by omega)
      refine ⟨⟨1001 - (left2 + 1), offset, entries⟩ :: rest, ?_, by simp [hlen]⟩
      have hIfd : readIFD bo isBig f (1001 - (left2 + 1)) offset
          = .ok ⟨1001 - (left2 + 1), offset, entries⟩ := by
        unfold readIFD
        rw [hraw]
        rfl
      unfold tiffReadLoop
      simp only [if_neg h0, hIfd, hcnt, hnext, hrest]

theorem chainRuns_readLoop (bo : ByteOrder) (isBig : Bool) (f : TFile) :
    ∀ (left : Nat) (offset : Nat),
      ChainRuns bo isBig f offset (left + 1) →
      tiffReadLoop bo isBig f left offset = .error (.invalidFormat "Too many IFDs") := by
  intro left
  induction left with
  | zero =>
    intro offset hcr
    cases hcr with
    | step h0 hraw hcnt hnext htail =>
      unfold tiffReadLoop
      simp only [if_neg h0]
  | succ left2 ih =>
    intro offset hcr
    cases hcr with
    | @step _ _ next cnt entries h0 hraw hcnt hnext htail =>
      have hIfd : readIFD bo isBig f (1001 - (left2 + 1)) offset
          = .ok ⟨1001 - (left2 + 1), offset, entries⟩ := by
        unfold readIFD
        rw [hraw]
        rfl
      unfold tiffReadLoop
      simp only [if_neg h0, hIfd, hcnt, hnext, ih next htail]

/-- C8 (amended): `read()` materializes at most 1001 IFDs, not 1000: any
successful `read()` yields at most 1001 IFDs; a chain that terminates after
`k ≤ 1001` successfully parsed IFDs is accepted and yields exactly `k` IFDs
(in particular a file with 1001 linked IFDs — more than 1000 — is accepted,
see the counterexample); and only a chain still running after 1002 parse
steps makes `read()` abort with `InvalidFormat` (the guard `ifd_number > 1000`
fires when the 1002nd IFD is about to be read). -/
theorem read_ifd_chain_guard :
    (∀ (r : TiffReaderState) (ifds : List IFD),
        tiffRead r = .ok ifds → ifds.length ≤ 1001)
    ∧ (∀ (r : TiffReaderState) (o k : Nat),
        readFirstIfdOffset r = .ok o →
        ChainEnds r.byteOrder r.isBigTiff r.file o k → k ≤ 1001 →
        ∃ ifds, tiffRead r = .ok ifds ∧ ifds.length = k)
    ∧ (∀ (r : TiffReaderState) (o : Nat),
        readFirstIfdOffset r = .ok o →
        ChainRuns r.byteOrder r.isBigTiff r.file o 1002 →
        tiffRead r = .error (.invalidFormat "Too many IFDs")) := by
  refine ⟨?_, ?_, ?_⟩
  · intro r ifds h
    unfold tiffRead at h
    cases hfo : readFirstIfdOffset r with
    | error e => rw [hfo] at h; exact absurd h (by simp)
    | ok o =>
      simp only [hfo] at h
      exact tiffReadLoop_length _ _ _ 1001 o ifds h
  · intro r o k hfo hc hk
    obtain ⟨l, hl, hlen⟩ := chainEnds_readLoop _ _ _ hc 1001 hk
    refine ⟨l, ?_, hlen⟩
    unfold tiffRead
    simp only [hfo, hl]
  · intro r o hfo hcr
    unfold tiffRead
    simp only [hfo]
    exact chainRuns_readLoop _ _ _ 1001 o hcr

/-- A classic little-endian TIFF whose chain has `n` zero-entry IFDs: header
`II 42` with first-IFD offset 8, then IFD `i` at `8 + 6i` consisting of a
zero `u16` entry count and a `u32` next-IFD offset pointing at IFD `i+1`
(or 0 for the last). -/
def chainFile (n : Nat) : TFile :=
  { size := 8 + 6 * n
    byteAt := fun p =>
      if p = 0 ∨ p = 1 then 73
      else if p = 2 then 42
      else if p = 3 then 0
      else if p = 4 then 8
      else if p < 8 then 0
      else
        let q := p - 8
        let i := q / 6
        let r := q % 6
        if r < 2 then 0
        else
          let next := if i + 1 < n then 8 + 6 * (i + 1) else 0
          next / 256 ^ (r - 2) % 256 }

/-- Open `chainFile n` and report how many IFDs `read()` materializes. -/
def chainReadLen (n : Nat) : Except Err Nat :=
  match openWithOptions (chainFile n) true 256 with
  | .error e => .error e
  | .ok r => (tiffRead r).map List.length

theorem chainFile_size (n : Nat) : (chainFile n).size = 8 + 6 * n := rfl

theorem chainFile_count_byte (n i j : Nat) (hj : j < 2) :
    (chainFile n).byteAt (8 + 6 * i + j) = 0 := by
  simp only [chainFile]
  rw [if_neg (by omega), if_neg (by omega), if_neg (by omega), if_neg (by omega),
    if_neg (by omega), if_pos (by omega : (8 + 6 * i + j - 8) % 6 < 2)]

theorem chainFile_next_byte (n i j : Nat) (hj : j < 4) :
    (chainFile n).byteAt (10 + 6 * i + j)
      = (if i + 1 < n then 8 + 6 * (i + 1) else 0) / 256 ^ j % 256 := by
  simp only [chainFile]
  rw [if_neg (by omega), if_neg (by omega), if_neg (by omega), if_neg (by omega),
    if_neg (by omega), if_neg (by omega : ¬ (10 + 6 * i + j - 8) % 6 < 2)]
  have hq : (10 + 6 * i + j - 8) / 6 = i := by omega
  have hr : (10 + 6 * i + j - 8) % 6 - 2 = j := by omega
  rw [hq, hr]

theorem chainFile_parse (n i : Nat) (hi : i < n) (hn : 8 + 6 * n < 4294967296) :
    readEntryCount .littleEndian false (chainFile n) (8 + 6 * i) = .ok 0
    ∧ readIFDRaw .littleEndian false (chainFile n) (8 + 6 * i) = .ok []
    ∧ readNextIfdOffset .littleEndian false (chainFile n)
        (calculateEntriesEnd false (8 + 6 * i) 0)
      = .ok (if i + 1 < n then 8 + 6 * (i + 1) else 0) := by
  have hrange2 : List.range 2 = [0, 1] := rfl
  have hrange4 : List.range 4 = [0, 1, 2, 3] := rfl
  have hcnt : readEntryCount .littleEndian false (chainFile n) (8 + 6 * i) = .ok 0 := by
    unfold readEntryCount readUInt readExact
    rw [if_neg (by simp : ¬ false = true), if_pos (by rw [chainFile_size]; omega)]
    simp only [hrange2, List.map_cons, List.map_nil,
      chainFile_count_byte n i 0 (by omega), chainFile_count_byte n i 1 (by omega),
      Except.map]
    simp [leWord]
  refine ⟨hcnt, ?_, ?_⟩
  · unfold readIFDRaw
    simp only [hcnt, Bind.bind, Except.bind]
    rfl
  · have hee : calculateEntriesEnd false (8 + 6 * i) 0 = 10 + 6 * i := by
      unfold calculateEntriesEnd wrap64
      rw [if_neg (by simp : ¬ false = true), if_neg (by simp : ¬ false = true)]
      rw [Nat.mod_eq_of_lt (by omega)]
      omega
    rw [hee]
    set v := if i + 1 < n then 8 + 6 * (i + 1) else 0 with hv
    have hvlt : v < 4294967296 := by
      rw [hv]; split <;> omega
    unfold readNextIfdOffset readUInt readExact
    rw [if_neg (by simp : ¬ false = true), if_pos (by rw [chainFile_size]; omega)]
    have hb0 : (chainFile n).byteAt (10 + 6 * i + 0) = v % 256 := by
      have := chainFile_next_byte n i 0 (by omega)
      simpa using this
    have hb1 : (chainFile n).byteAt (10 + 6 * i + 1) = v / 256 % 256 := by
      have := chainFile_next_byte n i 1 (by omega)
      simpa using this
    have hb2 : (chainFile n).byteAt (10 + 6 * i + 2) = v / 65536 % 256 := by
      have := chainFile_next_byte n i 2 (by omega)
      norm_num at this
      simpa using this
    have hb3 : (chainFile n).byteAt (10 + 6 * i + 3) = v / 16777216 % 256 := by
      have := chainFile_next_byte n i 3 (by omega)
      norm_num at this
      simpa using this
    simp only [hrange4, List.map_cons, List.map_nil, hb0, hb1, hb2, hb3, Except.map]
    simp only [leWord, List.foldr_cons, List.foldr_nil]
    congr 1
    omega

theorem chainFile_chainEnds (n : Nat) (hn : 8 + 6 * n < 4294967296) :
    ∀ k i, i + k = n → 1 ≤ k →
      ChainEnds .littleEndian false (chainFile n) (8 + 6 * i) k := by
  intro k
  induction k with
  | zero => omega
  | succ k ih =>
    intro i hik _
    obtain ⟨hcnt, hraw, hnext⟩ := chainFile_parse n i (by omega) hn
    rcases Nat.eq_zero_or_pos k with hk0 | hk1
    · subst hk0
      have hlast : (if i + 1 < n then 8 + 6 * (i + 1) else 0) = 0 := by
        rw [if_neg (by omega)]
      rw [hlast] at hnext
      exact ChainEnds.step (by omega) hraw hcnt hnext ChainEnds.done
    · have hcons : (if i + 1 < n then 8 + 6 * (i + 1) else 0) = 8 + 6 * (i + 1) := by
        rw [if_pos (by omega)]
      rw [hcons] at hnext
      exact ChainEnds.step (by omega) hraw hcnt hnext (ih (i + 1) (by omega) hk1)

/-- A concrete reader over the two-IFD chain file. -/
def chain2Reader : TiffReaderState :=
  { file := chainFile 2, byteOrder := .littleEndian, isBigTiff := false,
    useMmap := true, pos := 4, cache := TileCache.new 256, currentIfdIndex := 0 }

/-- C8 witness: the acceptance part of `read_ifd_chain_guard` applied to a
concrete reader over the two-IFD chain file. -/
theorem read_ifd_chain_guard_witness :
    ∃ ifds, tiffRead chain2Reader = .ok ifds ∧ ifds.length = 2 := by
  have hce : ChainEnds .littleEndian false (chainFile 2) (8 + 6 * 0) 2 :=
    chainFile_chainEnds 2 (by norm_num) 2 0 (by norm_num) (by norm_num)
  have hce8 : ChainEnds chain2Reader.byteOrder chain2Reader.isBigTiff
      chain2Reader.file 8 2 := by simpa using hce
  exact read_ifd_chain_guard.2.1 chain2Reader 8 2 (by rfl) hce8 (by norm_num)

/-- C8 counterexample: a file whose IFD chain has 1001 linked IFDs — more
than 1000 — before the zero next-IFD offset is accepted by `read()` (which
materializes all 1001 IFDs) instead of aborting with `InvalidFormat` as the
claim states. -/
theorem read_ifd_chain_counterexample : chainReadLen 1001 = .ok 1001 := by
  have hce : ChainEnds .littleEndian false (chainFile 1001) (8 + 6 * 0) 1001 :=
    chainFile_chainEnds 1001 (by norm_num) 1001 0 (by norm_num) (by norm_num)
  have hce8 : ChainEnds .littleEndian false (chainFile 1001) 8 1001 := by
    simpa using hce
  obtain ⟨l, hl, hlen⟩ := chainEnds_readLoop _ _ _ hce8 1001 (le_refl _)
  have hopen : openWithOptions (chainFile 1001) true 256
      = .ok { file := chainFile 1001, byteOrder := .littleEndian,
              isBigTiff := false, useMmap := true, pos := 4,
              cache := TileCache.new 256, currentIfdIndex := 0 } := by
    rfl
  have hfo : readFirstIfdOffset
      { file := chainFile 1001, byteOrder := .littleEndian,
        isBigTiff := false, useMmap := true, pos := 4,
        cache := TileCache.new 256, currentIfdIndex := 0 } = .ok 8 := by
    rfl
  unfold chainReadLen
  rw [hopen]
  unfold tiffRead
  simp only [hfo, hl, Except.map, hlen]

/-! ### Tile loading, src/formats/tiff/reader/tiles.rs and parallel.rs -/

/-- `ParallelConfig` (src/formats/tiff/reader/parallel.rs). -/
structure ParallelConfig where
  compressionValue : Nat
  predictor : Nat
  tileWidth : Nat
  tileHeight : Nat
  mmap : Option TFile
  byteOrder : ByteOrder

/-- `ParallelConfig::from_ifd`. -/
def ParallelConfig.fromIfd (ifd : IFD) (mmap : Option TFile) (bo : ByteOrder) :
    Except Err ParallelConfig :=
  match ifd.tileDimensions with
  | Option.none => .error (.invalidFormat "Missing tile dimensions")
  | some td =>
    .ok { compressionValue := ifd.compressionTag.getD 1,
          predictor := (ifd.getTagValue 317).getD 1,
          tileWidth := td.width, tileHeight := td.height,
          mmap := mmap, byteOrder := bo }

/-- `TileReader::read_tile_offset_static`: always little-endian from the
memory map (the `_byte_order` parameter is ignored by the source), and
`Unsupported` without a map.  The slice `&mmap[start..start+8]` panics when
out of range. -/
def readTileOffsetStatic (entry : IFDEntry) (index : Nat) (mmap : Option TFile) :
    Except Err Nat :=
  let offsetSize := entry.fieldTypeSize
  let fileOffset := wrap64 (entry.valueOffset + wrap64 (index * offsetSize))
  match mmap with
  | some m =>
    if offsetSize = 8 then (sliceGet m fileOffset (fileOffset + 8)).map leWord
    else (sliceGet m fileOffset (fileOffset + 4)).map leWord
  | Option.none => .error (.unsupported "Parallel reading requires memory mapping")

/-- `TileReader::read_tile_byte_count_static` (same body as the offset
variant in the source). -/
def readTileByteCountStatic (entry : IFDEntry) (index : Nat) (mmap : Option TFile) :
    Except Err Nat :=
  let countSize := entry.fieldTypeSize
  let fileOffset := wrap64 (entry.valueOffset + wrap64 (index * countSize))
  match mmap with
  | some m =>
    if countSize = 8 then (sliceGet m fileOffset (fileOffset + 8)).map leWord
    else (sliceGet m fileOffset (fileOffset + 4)).map leWord
  | Option.none => .error (.unsupported "Parallel reading requires memory mapping")

/-- `TileReader::read_tile_offset`: seek to
`entry.value_offset + index * size` and read through the byte-order handler
on the buffered reader. -/
def readTileOffsetSeq (bo : ByteOrder) (file : TFile) (entry : IFDEntry) (index : Nat) :
    Except Err Nat :=
  let offsetSize := entry.fieldTypeSize
  let fileOffset := wrap64 (entry.valueOffset + wrap64 (index * offsetSize))
  if offsetSize = 8 then readUInt bo 8 file fileOffset
  else readUInt bo 4 file fileOffset

/-- `TileReader::read_tile_byte_count` (same body as the offset variant). -/
def readTileByteCountSeq (bo : ByteOrder) (file : TFile) (entry : IFDEntry) (index : Nat) :
    Except Err Nat :=
  let countSize := entry.fieldTypeSize
  let fileOffset := wrap64 (entry.valueOffset + wrap64 (index * countSize))
  if countSize = 8 then readUInt bo 8 file fileOffset
  else readUInt bo 4 file fileOffset

/-- `TileReader::create_empty_tile`: `vec![0u8; (Tw * Th) as usize]` — the
tile pixel extent in bytes, with no bytes-per-sample factor. -/
def createEmptyTile (ifd : IFD) : Except Err (List Nat) :=
  match ifd.tileDimensions with
  | Option.none => .error (.invalidFormat "Missing tile dimensions")
  | some td => .ok (List.replicate (wrap64 (td.width * td.height)) 0)

/-- `TileReader::read_compressed_data`: from the memory map when present
(`mmap[start..end].to_vec()`, which panics when out of range), else
seek-and-read on the buffered reader. -/
def readCompressedData (mmap : Option TFile) (file : TFile) (offset byteCount : Nat) :
    Except Err (List Nat) :=
  match mmap with
  | some m => sliceGet m offset (wrap64 (offset + byteCount))
  | Option.none => readExact file offset byteCount

/-- `TileReader::decompress_and_apply_predictor`. -/
def decompressAndApplyPredictor (env : CodecEnv) (ifd : IFD) (compressedData : List Nat) :
    Except Err (List Nat) :=
  match Compression.fromTag (ifd.compressionTag.getD 1) with
  | .error e => .error e
  | .ok compression =>
    match compression.decompress env compressedData with
    | .error e => .error e
    | .ok decompressed =>
      if (ifd.getTagValue 317).getD 1 = 2 then
        match ifd.tileDimensions with
        | Option.none => .error (.invalidFormat "Missing tile dimensions")
        | some td => .ok (applyHorizontalPredictor decompressed td.width td.height)
      else .ok decompressed

/-- `ParallelReader::decompress_tile` (the `tile_idx` argument only feeds the
error message and is dropped here): explicit range check against the map,
then slice, decompress and predictor. -/
def decompressTile (env : CodecEnv) (offset byteCount : Nat) (config : ParallelConfig) :
    Except Err (List Nat) :=
  match config.mmap with
  | Option.none => .error (.unsupported "Parallel reading requires memory mapping")
  | some m =>
    let start := offset
    let endIdx := wrap64 (start + byteCount)
    if m.size < endIdx then .error (.outOfBounds "Tile data range exceeds file size")
    else
      match sliceGet m start endIdx with
      | .error e => .error e
      | .ok compressed =>
        match Compression.fromTag config.compressionValue with
        | .error e => .error e
        | .ok compression =>
          match compression.decompress env compressed with
          | .error e => .error e
          | .ok decompressed =>
            if config.predictor = 2 then
              .ok (applyHorizontalPredictor decompressed config.tileWidth config.tileHeight)
            else .ok decompressed

/-- `ParallelReader::load_single_tile`. -/
def loadSingleTile (env : CodecEnv) (tileIdx : Nat)
    (offsetsEntry byteCountsEntry : IFDEntry) (config : ParallelConfig) :
    Except Err (Nat × List Nat) :=
  match readTileOffsetStatic offsetsEntry tileIdx config.mmap with
  | .error e => .error e
  | .ok offset =>
    match readTileByteCountStatic byteCountsEntry tileIdx config.mmap with
    | .error e => .error e
    | .ok byteCount =>
      if byteCount = 0 then
        .ok (tileIdx, List.replicate (wrap64 (config.tileWidth * config.tileHeight)) 0)
      else
        match decompressTile env offset byteCount config with
        | .error e => .error e
        | .ok d => .ok (tileIdx, d)

/-- `TileReader::load_uncached_tile`. -/
def loadUncachedTile (env : CodecEnv) (r : TiffReaderState) (ifd : IFD) (tileIndex : Nat) :
    Except Err (List Nat) :=
  match ifd.getEntry 324 with
  | Option.none => .error (.missingTag 324)
  | some offsetsEntry =>
    match ifd.getEntry 325 with
    | Option.none => .error (.missingTag 325)
    | some byteCountsEntry =>
      match readTileOffsetSeq r.byteOrder r.file offsetsEntry tileIndex with
      | .error e => .error e
      | .ok offset =>
        match readTileByteCountSeq r.byteOrder r.file byteCountsEntry tileIndex with
        | .error e => .error e
        | .ok byteCount =>
          if byteCount = 0 then createEmptyTile ifd
          else
            match readCompressedData (mmapOf r) r.file offset byteCount with
            | .error e => .error e
            | .ok compressed => decompressAndApplyPredictor env ifd compressed

/-- `TileReader::read_tile` on a reader without prefetch
(`collect_prefetched_tiles` is a no-op, no access pattern is recorded):
cache lookup, else load and insert. -/
def readTile (env : CodecEnv) (r : TiffReaderState) (ifd : IFD) (tileIndex : Nat) :
    Except Err (List Nat × TiffReaderState) :=
  match r.cache.get r.currentIfdIndex tileIndex with
  | (some cached, c2) => .ok (cached, { r with cache := c2 })
  | (Option.none, c2) =>
    match loadUncachedTile env r ifd tileIndex with
    | .error e => .error e
    | .ok tileData =>
      .ok (tileData, { r with cache := c2.put r.currentIfdIndex tileIndex tileData })

/-- `PixelReader::read_u8_from_tile`. -/
def readU8FromTile (tileData : List Nat) (pixelIndex : Nat) : Except Err Nat :=
  match tileData.get? pixelIndex with
  | some b => .ok b
  | Option.none => .error (.outOfBounds "Pixel index exceeds tile data length")

/-- `TiffReader::read_pixel_value` (`read_pixel_data` then the u8 extractor). -/
def readPixelValue (env : CodecEnv) (r : TiffReaderState) (ifd : IFD) (x y : Nat) :
    Except Err (Nat × TiffReaderState) :=
  match validateTiledAccess ifd with
  | .error e => .error e
  | .ok _ =>
    match validatePixelBounds ifd x y with
    | .error e => .error e
    | .ok _ =>
      match calculateTileIndex ifd x y with
      | .error e => .error e
      | .ok tileIndex =>
        match readTile env r ifd tileIndex with
        | .error e => .error e
        | .ok (tileData, r2) =>
          match calculatePixelIndex ifd x y with
          | .error e => .error e
          | .ok pixelIndex =>
            match readU8FromTile tileData pixelIndex with
            | .error e => .error e
            | .ok v => .ok (v, r2)

/-- Calling `read_pixel_value` sequentially on each coordinate, threading the
reader (its cache) through; the claimed sequential reference for the batch. -/
def readPixelsSeq (env : CodecEnv) (ifd : IFD) :
    TiffReaderState → List (Nat × Nat) → Except Err (List Nat × TiffReaderState)
  | r, [] => .ok ([], r)
  | r, (x, y) :: rest =>
    match readPixelValue env r ifd x y with
    | .error e => .error e
    | .ok (v, r2) =>
      match readPixelsSeq env ifd r2 rest with
      | .error e => .error e
      | .ok (vs, r3) => .ok (v :: vs, r3)

/-! ### Batch path, src/formats/tiff/reader/mod.rs `read_pixels_batch` -/

/-- `tile_pixels.entry(t).or_insert_with(Vec::new).push((i, x, y))`: groups
keep first-occurrence key order and members keep push order.  (Rust iterates
the `HashMap` in unspecified order; it is modelled as insertion order.  No
settled claim depends on the iteration order: the scattered values are
order-independent.) -/
def assocPush (acc : List (Nat × List (Nat × Nat × Nat))) (t : Nat)
    (entry : Nat × Nat × Nat) : List (Nat × List (Nat × Nat × Nat)) :=
  match acc with
  | [] => [(t, [entry])]
  | (t2, l) :: rest =>
    if t2 = t then (t2, l ++ [entry]) :: rest
    else (t2, l) :: assocPush rest t entry

/-- The validation-and-grouping loop of `read_pixels_batch` (`i` is the
enumeration index). -/
def buildTilePixelsGo (ifd : IFD) :
    Nat → List (Nat × Nat) → List (Nat × List (Nat × Nat × Nat)) →
    Except Err (List (Nat × List (Nat × Nat × Nat)))
  | _, [], acc => .ok acc
  | i, (x, y) :: rest, acc =>
    match validateTiledAccess ifd with
    | .error e => .error e
    | .ok _ =>
      match validatePixelBounds ifd x y with
      | .error e => .error e
      | .ok _ =>
        match calculateTileIndex ifd x y with
        | .error e => .error e
        | .ok t => buildTilePixelsGo ifd (i + 1) rest (assocPush acc t (i, x, y))

/-- The grouping map of `read_pixels_batch`, starting from an empty map. -/
def buildTilePixels (ifd : IFD) (coords : List (Nat × Nat)) :
    Except Err (List (Nat × List (Nat × Nat × Nat))) :=
  buildTilePixelsGo ifd 0 coords []

/-- The `par_iter().map(load_single_tile).collect()` + `result?` loop of
`read_tiles_parallel_direct`: results in index order, first error aborts. -/
def loadTilesGo (env : CodecEnv) (offsetsEntry byteCountsEntry : IFDEntry)
    (config : ParallelConfig) : List Nat → Except Err (List (List Nat))
  | [] => .ok []
  | t :: ts =>
    match loadSingleTile env t offsetsEntry byteCountsEntry config with
    | .error e => .error e
    | .ok td => (loadTilesGo env offsetsEntry byteCountsEntry config ts).map (td.2 :: ·)

/-- `ParallelReader::read_tiles_parallel_direct`. -/
def readTilesParallelDirect (env : CodecEnv) (ifd : IFD) (tileIndices : List Nat)
    (mmap : Option TFile) (bo : ByteOrder) : Except Err (List (List Nat)) :=
  match ifd.getEntry 324 with
  | Option.none => .error (.missingTag 324)
  | some offsetsEntry =>
    match ifd.getEntry 325 with
    | Option.none => .error (.missingTag 325)
    | some byteCountsEntry =>
      match ParallelConfig.fromIfd ifd mmap bo with
      | .error e => .error e
      | .ok config => loadTilesGo env offsetsEntry byteCountsEntry config tileIndices

/-- `tile_map.get(tile_index)` over the zipped `(indices, tiles)` list. -/
def assocFind (tileMap : List (Nat × List Nat)) (t : Nat) : Option (List Nat) :=
  (tileMap.find? (fun p => p.1 == t)).map Prod.snd

/-- Inner extraction loop of `read_pixels_batch`: for each `(i, x, y)` of a
group, compute the intra-tile index, read the byte and store it at `i`. -/
def scatterPixels (ifd : IFD) (tileData : List Nat) :
    List (Nat × Nat × Nat) → List Nat → Except Err (List Nat)
  | [], results => .ok results
  | (i, x, y) :: ps, results =>
    match calculatePixelIndex ifd x y with
    | .error e => .error e
    | .ok p =>
      match readU8FromTile tileData p with
      | .error e => .error e
      | .ok v => scatterPixels ifd tileData ps (results.set i v)

/-- Outer extraction loop of `read_pixels_batch` over the groups. -/
def scatterGroups (ifd : IFD) (tileMap : List (Nat × List Nat)) :
    List (Nat × List (Nat × Nat × Nat)) → List Nat → Except Err (List Nat)
  | [], results => .ok results
  | (t, ps) :: groups, results =>
    match assocFind tileMap t with
    | Option.none => .error (.invalidFormat "Missing tile data")
    | some tileData =>
      match scatterPixels ifd tileData ps results with
      | .error e => .error e
      | .ok results2 => scatterGroups ifd tileMap groups results2

/-- `TiffReader::read_pixels_batch`. -/
def readPixelsBatch (env : CodecEnv) (r : TiffReaderState) (ifd : IFD)
    (coords : List (Nat × Nat)) : Except Err (List Nat) :=
  match buildTilePixels ifd coords with
  | .error e => .error e
  | .ok tilePixels =>
    let tileIndices := tilePixels.map Prod.fst
    match readTilesParallelDirect env ifd tileIndices (mmapOf r) r.byteOrder with
    | .error e => .error e
    | .ok tiles =>
      scatterGroups ifd (tileIndices.zip tiles) tilePixels
        (List.replicate coords.length 0)

/-! ### C2: empty tiles -/

/-- C2 (amended): a zero byte-count tile decodes to a zero-filled buffer of
`Tw·Th` bytes — the declared tile pixel extent, with no bytes-per-sample
factor — both in the cached path (`create_empty_tile`) and in the parallel
path (`load_single_tile`). -/
theorem empty_tile_extent :
    (∀ (ifd : IFD) (Tw Th : Nat), ifd.tileDimensions = some ⟨Tw, Th⟩ →
        createEmptyTile ifd = .ok (List.replicate (wrap64 (Tw * Th)) 0))
    ∧ (∀ (env : CodecEnv) (tileIdx : Nat) (oe ce : IFDEntry)
        (config : ParallelConfig) (o : Nat),
        readTileOffsetStatic oe tileIdx config.mmap = .ok o →
        readTileByteCountStatic ce tileIdx config.mmap = .ok 0 →
        loadSingleTile env tileIdx oe ce config
          = .ok (tileIdx,
              List.replicate (wrap64 (config.tileWidth * config.tileHeight)) 0)) := by
  constructor
  · intro ifd Tw Th htd
    unfold createEmptyTile
    rw [htd]
  · intro env tileIdx oe ce config o ho hc
    unfold loadSingleTile
    rw [ho, hc]
    simp

/-- Concrete 16-bit tiled IFD: `Tw = Th = 2`, `BitsPerSample = 16`. -/
def ifd16 : IFD :=
  ⟨0, 0, [⟨322, 4, 1, 2⟩, ⟨323, 4, 1, 2⟩, ⟨258, 3, 1, 16⟩]⟩

/-- Modelled from the spec: the declared decompressed-tile size
`Tw·Th·bytes_per_sample` of the claim (data-model row "Decompressed tile"),
with `bytes_per_sample = bits_per_sample / 8`; this quantity is not computed
anywhere in src/. -/
def declaredDecompressedTileSize (ifd : IFD) : Option Nat := do
  let td ← ifd.tileDimensions
  let bits ← ifd.bitsPerSample
  pure (td.width * td.height * (bits / 8))

/-- C2 counterexample: on a 2×2 tile with 16-bit samples the zero-count tile
buffer has 4 bytes, not the declared `Tw·Th·bytes_per_sample = 8` bytes. -/
theorem empty_tile_extent_counterexample :
    (createEmptyTile ifd16).map List.length = .ok 4
    ∧ declaredDecompressedTileSize ifd16 = some 8
    ∧ (4 : Nat) ≠ 8 := by
  refine ⟨by rfl, by rfl, by decide⟩

/-- C2 witness: the `create_empty_tile` part of `empty_tile_extent` applied
to the concrete 16-bit IFD. -/
theorem empty_tile_extent_witness :
    createEmptyTile ifd16 = .ok (List.replicate (wrap64 (2 * 2)) 0) :=
  empty_tile_extent.1 ifd16 2 2 (by rfl)

/-! ### C10: the batch path requires the memory map -/

theorem isTiled_of_tileDims (ifd : IFD) (td : Dimensions)
    (h : ifd.tileDimensions = some td) : ifd.isTiled = true := by
  unfold IFD.tileDimensions at h
  unfold IFD.isTiled
  cases hw : ifd.getTagValue 322 with
  | none => rw [hw] at h; cases h
  | some w =>
    unfold IFD.getTagValue at hw
    cases he : ifd.getEntry 322 with
    | none => rw [he] at hw; cases hw
    | some e => simp [he]

theorem validateTiledAccess_ok (ifd : IFD) (h : ifd.isTiled = true) :
    validateTiledAccess ifd = .ok () := by
  unfold validateTiledAccess
  rw [h]
  rfl

theorem validatePixelBounds_ok (ifd : IFD) (W H x y : Nat)
    (hdim : ifd.dimensions = some ⟨W, H⟩) (hx : x < W) (hy : y < H) :
    validatePixelBounds ifd x y = .ok () := by
  have hcond : ¬ (W ≤ x ∨ H ≤ y) := by omega
  unfold validatePixelBounds
  simp [hdim, hcond]

theorem calculateTileIndex_ok (ifd : IFD) (W H Tw Th x y : Nat)
    (hdim : ifd.dimensions = some ⟨W, H⟩)
    (htd : ifd.tileDimensions = some ⟨Tw, Th⟩)
    (hTw : 1 ≤ Tw) (hTh : 1 ≤ Th) :
    ∃ t, calculateTileIndex ifd x y = .ok t := by
  have hcond : ¬ (Tw = 0 ∨ Th = 0) := by omega
  unfold calculateTileIndex
  simp [hdim, htd, hcond]

theorem assocPush_ne_nil (acc : List (Nat × List (Nat × Nat × Nat))) (t : Nat)
    (entry : Nat × Nat × Nat) : assocPush acc t entry ≠ [] := by
  cases acc with
  | nil => simp [assocPush]
  | cons p rest =>
    unfold assocPush
    obtain ⟨t2, l⟩ := p
    by_cases h : t2 = t <;> simp [h]

theorem buildTilePixelsGo_ok (ifd : IFD) (W H Tw Th : Nat)
    (hdim : ifd.dimensions = some ⟨W, H⟩)
    (htd : ifd.tileDimensions = some ⟨Tw, Th⟩)
    (hTw : 1 ≤ Tw) (hTh : 1 ≤ Th) :
    ∀ (coords : List (Nat × Nat)) (i : Nat) (acc : List (Nat × List (Nat × Nat × Nat))),
      (∀ c ∈ coords, c.1 < W ∧ c.2 < H) →
      ∃ groups, buildTilePixelsGo ifd i coords acc = .ok groups
        ∧ (groups = [] → acc = [] ∧ coords = []) := by
  intro coords
  induction coords with
  | nil =>
    intro i acc _
    exact ⟨acc, rfl, fun h => ⟨h, rfl⟩⟩
  | cons c rest ih =>
    intro i acc hb
    obtain ⟨x, y⟩ := c
    have hxy := hb (x, y) (by simp)
    obtain ⟨t, ht⟩ := calculateTileIndex_ok ifd W H Tw Th x y hdim htd hTw hTh
    obtain ⟨groups, hgo, hne⟩ := ih (i + 1) (assocPush acc t (i, x, y))
      (fun c hc => hb c (by simp [hc]))
    refine ⟨groups, ?_, ?_⟩
    · unfold buildTilePixelsGo
      rw [validateTiledAccess_ok ifd (isTiled_of_tileDims ifd _ htd),
        validatePixelBounds_ok ifd W H x y hdim hxy.1 hxy.2, ht]
      exact hgo
    · intro h
      exact absurd (hne h).1 (assocPush_ne_nil acc t (i, x, y))

/-- C10: on a reader opened with `use_mmap = false`, `read_pixels_batch` over
any non-empty list of in-bounds coordinates of a (fully) tiled IFD fails with
the `Unsupported` memory-mapping error raised by `read_tile_offset_static`,
while the empty coordinate list yields the empty vector. -/
theorem batch_requires_mmap (env : CodecEnv) (r : TiffReaderState) (ifd : IFD)
    (coords : List (Nat × Nat)) (W H Tw Th : Nat) (oe ce : IFDEntry)
    (hmm : r.useMmap = false)
    (hdim : ifd.dimensions = some ⟨W, H⟩)
    (htd : ifd.tileDimensions = some ⟨Tw, Th⟩)
    (hTw : 1 ≤ Tw) (hTh : 1 ≤ Th)
    (hoe : ifd.getEntry 324 = some oe)
    (hce : ifd.getEntry 325 = some ce)
    (hb : ∀ c ∈ coords, c.1 < W ∧ c.2 < H) :
    (coords ≠ [] → readPixelsBatch env r ifd coords
        = .error (.unsupported "Parallel reading requires memory mapping"))
    ∧ readPixelsBatch env r ifd [] = .ok [] := by
  have hmmap : mmapOf r = Option.none := by
    unfold mmapOf
    rw [hmm]
    rfl
  have hcfgN : ParallelConfig.fromIfd ifd Option.none r.byteOrder
      = .ok { compressionValue := ifd.compressionTag.getD 1,
              predictor := (ifd.getTagValue 317).getD 1,
              tileWidth := Tw, tileHeight := Th,
              mmap := Option.none, byteOrder := r.byteOrder } := by
    simp [ParallelConfig.fromIfd, htd]
  constructor
  · intro hne
    obtain ⟨groups, hgo, hgne⟩ :=
      buildTilePixelsGo_ok ifd W H Tw Th hdim htd hTw hTh coords 0 [] hb
    have hgroups_ne : groups ≠ [] := fun h => hne ((hgne h).2)
    match groups, hgroups_ne with
    | g :: gs, _ =>
      simp [readPixelsBatch, buildTilePixels, hgo, readTilesParallelDirect,
        hoe, hce, hmmap, hcfgN, loadTilesGo, loadSingleTile, readTileOffsetStatic]
  · simp [readPixelsBatch, buildTilePixels, buildTilePixelsGo,
      readTilesParallelDirect, hoe, hce, hmmap, hcfgN, loadTilesGo, scatterGroups]

/-- A tiny 1×1 tiled IFD with tile offset and byte-count entries. -/
def ifd11 : IFD :=
  ⟨0, 0, [⟨256, 4, 1, 1⟩, ⟨257, 4, 1, 1⟩, ⟨322, 4, 1, 1⟩, ⟨323, 4, 1, 1⟩,
    ⟨324, 4, 1, 86⟩, ⟨325, 4, 1, 90⟩]⟩

/-- A reader opened without a memory map (over an arbitrary small file). -/
def noMmapReader : TiffReaderState :=
  { file := xxFile, byteOrder := .littleEndian, isBigTiff := false,
    useMmap := false, pos := 4, cache := TileCache.new 256, currentIfdIndex := 0 }

/-- C10 witness: `batch_requires_mmap` applied to a concrete no-mmap reader,
the 1×1 tiled IFD and the singleton coordinate list `[(0, 0)]`. -/
theorem batch_requires_mmap_witness :
    readPixelsBatch refusingEnv noMmapReader ifd11 [(0, 0)]
        = .error (.unsupported "Parallel reading requires memory mapping")
    ∧ readPixelsBatch refusingEnv noMmapReader ifd11 [] = .ok [] := by
  have h := batch_requires_mmap refusingEnv noMmapReader ifd11 [(0, 0)]
    1 1 1 1 ⟨324, 4, 1, 86⟩ ⟨325, 4, 1, 90⟩
    (by rfl) (by rfl) (by rfl) (by decide) (by decide) (by rfl) (by rfl)
    (by decide)
  exact ⟨h.1 (by decide), h.2⟩

/-! ### C1: batch versus sequential reads

The proof compares both paths with a stateless per-coordinate reference
(`readPixelSpec`): validate, locate the tile, load it directly through the
parallel-path loader, extract the byte.  The batch path is this reference
modulo grouping and scattering (independent of byte order), and the
sequential path is this reference modulo the cache (which needs the
little-endian/memory-map agreement of the two tile loaders). -/

/-- The per-coordinate validation prefix shared by `read_pixel_data` and the
grouping loop of `read_pixels_batch`: tiled check, bounds check, tile
index. -/
def coordTile (ifd : IFD) (c : Nat × Nat) : Except Err Nat :=
  match validateTiledAccess ifd with
  | .error e => .error e
  | .ok _ =>
    match validatePixelBounds ifd c.1 c.2 with
    | .error e => .error e
    | .ok _ => calculateTileIndex ifd c.1 c.2

/-- One tile loaded exactly as `read_tiles_parallel_direct` loads it: entry
lookups, configuration, `load_single_tile`. -/
def loadDirect (env : CodecEnv) (ifd : IFD) (mmap : Option TFile) (bo : ByteOrder)
    (t : Nat) : Except Err (List Nat) :=
  match ifd.getEntry 324 with
  | Option.none => .error (.missingTag 324)
  | some oe =>
    match ifd.getEntry 325 with
    | Option.none => .error (.missingTag 325)
    | some ce =>
      match ParallelConfig.fromIfd ifd mmap bo with
      | .error e => .error e
      | .ok config => (loadSingleTile env t oe ce config).map Prod.snd

/-- The stateless per-coordinate reference read. -/
def readPixelSpec (env : CodecEnv) (ifd : IFD) (mmap : Option TFile) (bo : ByteOrder)
    (c : Nat × Nat) : Except Err Nat :=
  match coordTile ifd c with
  | .error e => .error e
  | .ok t =>
    match loadDirect env ifd mmap bo t with
    | .error e => .error e
    | .ok tileData =>
      match calculatePixelIndex ifd c.1 c.2 with
      | .error e => .error e
      | .ok p => readU8FromTile tileData p

/-- Error-propagating map over a list (the shape shared by
`read_tiles_parallel_direct` и the sequential reference). -/
def emapM {α β : Type} (g : α → Except Err β) : List α → Except Err (List β)
  | [] => .ok []
  | a :: as2 =>
    match g a with
    | .error e => .error e
    | .ok b => (emapM g as2).map (b :: ·)

theorem emapM_ok_iff {α β : Type} (g : α → Except Err β) :
    ∀ (as2 : List α) (bs : List β),
      emapM g as2 = .ok bs ↔ List.Forall₂ (fun a b => g a = .ok b) as2 bs := by
  intro as2
  induction as2 with
  | nil =>
    intro bs
    constructor
    · intro h
      cases h
      exact List.Forall₂.nil
    · intro h
      cases h
      rfl
  | cons a rest ih =>
    intro bs
    constructor
    · intro h
      unfold emapM at h
      cases hg : g a with
      | error e => rw [hg] at h; cases h
      | ok b =>
        rw [hg] at h
        cases hr : emapM g rest with
        | error e => rw [hr] at h; cases h
        | ok bs2 =>
          rw [hr] at h
          cases h
          exact List.Forall₂.cons hg ((ih bs2).mp hr)
    · intro h
      cases h with
      | cons hg hrest =>
        unfold emapM
        rw [hg, (ih _).mpr hrest]
        rfl

/-- Under little-endian byte order, a handler read and a little-endian
memory-map slice read agree on success (they disagree only in the error they
raise: `Io` versus a slice panic). -/
theorem readUInt_sliceGet (f : TFile) (n pos v : Nat) :
    readUInt .littleEndian n f pos = .ok v
      ↔ (sliceGet f pos (pos + n)).map leWord = .ok v := by
  unfold readUInt readExact sliceGet
  by_cases h : pos + n ≤ f.size
  · rw [if_pos h, if_pos ⟨Nat.le_add_right _ _, h⟩]
    simp [Nat.add_sub_cancel_left]
  · rw [if_neg h, if_neg (fun hc => h hc.2)]
    constructor <;> (intro hh; simp [Except.map] at hh)

theorem readTileByteCountSeq_eq : @readTileByteCountSeq = @readTileOffsetSeq := rfl

theorem readTileByteCountStatic_eq : @readTileByteCountStatic = @readTileOffsetStatic := rfl

/-- The sequential handler-based tile-offset read and the static
little-endian memory-map read agree on success when the byte order is
little-endian and the map covers the same file. -/
theorem seqRead_static_iff (f : TFile) (entry : IFDEntry) (idx w : Nat) :
    readTileOffsetSeq .littleEndian f entry idx = .ok w
      ↔ readTileOffsetStatic entry idx (some f) = .ok w := by
  unfold readTileOffsetSeq readTileOffsetStatic
  by_cases h8 : entry.fieldTypeSize = 8
  · simp only [h8, if_pos rfl]
    exact readUInt_sliceGet f 8 _ w
  · simp only [if_neg h8]
    exact readUInt_sliceGet f 4 _ w

/-- A successful `mapLookup` hit is a member of the map. -/
theorem mapLookup_mem (k : Nat × Nat) (l : List ((Nat × Nat) × List Nat)) (v : List Nat)
    (h : mapLookup k l = some v) : (k, v) ∈ l := by
  unfold mapLookup at h
  cases hf : l.find? (fun p => p.1 = k) with
  | none => rw [hf] at h; cases h
  | some q =>
    rw [hf] at h
    have hv : q.2 = v := by
      simp only [Option.map] at h
      injection h
    have hk : q.1 = k := by
      have := List.find?_some hf
      simpa using this
    have hmem : q ∈ l := List.mem_of_find?_eq_some hf
    rw [← hk, ← hv]
    exact hmem

/-- A cache hit exposes a member of the map. -/
theorem get_some_mem (c : TileCache) (i t : Nat) (v : List Nat) (c2 : TileCache)
    (h : c.get i t = (some v, c2)) : ((i, t), v) ∈ c.cache := by
  unfold TileCache.get at h
  cases hl : mapLookup (i, t) c.cache with
  | none => rw [hl] at h; cases h
  | some w =>
    rw [hl] at h
    have hw : w = v := by injection h with h1 _; injection h1
    exact hw ▸ mapLookup_mem _ _ _ hl

/-- `get` never changes the map (only the advisory queue). -/
theorem get_snd_cache (c : TileCache) (i t : Nat) :
    ((c.get i t).2).cache = c.cache := by
  unfold TileCache.get
  cases mapLookup (i, t) c.cache <;> rfl

/-- The eviction loop only removes entries. -/
theorem evictLoop_subset (m : Nat) :
    ∀ (lru : List (Nat × Nat)) (cache : List ((Nat × Nat) × List Nat))
      (p : (Nat × Nat) × List Nat), p ∈ (evictLoop m lru cache).1 → p ∈ cache := by
  intro lru
  induction lru with
  | nil => intro cache p h; exact h
  | cons k rest ih =>
    intro cache p h
    unfold evictLoop at h
    by_cases hl : m ≤ cache.length
    · rw [if_pos hl] at h
      have := ih (mapRemove k cache) p h
      exact List.mem_of_mem_filter this
    · rw [if_neg hl] at h
      exact h

/-- Members after a `put` are the new entry or old members. -/
theorem put_mem (c : TileCache) (i t : Nat) (d : List Nat)
    (p : (Nat × Nat) × List Nat) (h : p ∈ (c.put i t d).cache) :
    p = ((i, t), d) ∨ p ∈ c.cache := by
  unfold TileCache.put at h
  simp only [mapInsert, List.mem_cons] at h
  rcases h with h | h
  · exact Or.inl h
  · exact Or.inr (evictLoop_subset _ _ _ _ (List.mem_of_mem_filter h))

/-- The cache of a reader agrees with the sequential tile loader: every cached
tile of the current IFD index is exactly what `load_uncached_tile` would
produce.  `open` establishes it trivially (the cache is empty) and `read_tile`
preserves it. -/
def CacheConsistent (env : CodecEnv) (r : TiffReaderState) (ifd : IFD) : Prop :=
  ∀ t d, ((r.currentIfdIndex, t), d) ∈ r.cache.cache →
    loadUncachedTile env r ifd t = .ok d

/-- Successful `read_tile` inversion on a consistent reader: the returned data
is the `load_uncached_tile` value and the state differs only in the cache,
staying consistent. -/
theorem readTile_ok_spec (env : CodecEnv) (r : TiffReaderState) (ifd : IFD)
    (t : Nat) (d : List Nat) (r2 : TiffReaderState)
    (hcons : CacheConsistent env r ifd)
    (h : readTile env r ifd t = .ok (d, r2)) :
    loadUncachedTile env r ifd t = .ok d
      ∧ ∃ c2, r2 = { r with cache := c2 } ∧ CacheConsistent env r2 ifd := by
  unfold readTile at h
  cases hg : r.cache.get r.currentIfdIndex t with
  | mk o c2 =>
    cases o with
    | some v =>
      simp only [hg] at h
      obtain ⟨hvd, hr2⟩ := Prod.mk.injEq .. ▸ (Except.ok.injEq .. ▸ h)
      have hmem : ((r.currentIfdIndex, t), v) ∈ r.cache.cache := get_some_mem _ _ _ _ _ hg
      have hload : loadUncachedTile env r ifd t = .ok d := hvd ▸ hcons t v hmem
      refine ⟨hload, c2, hr2.symm, ?_⟩
      intro t' d' hmem'
      have hc2 : c2.cache = r.cache.cache := by
        have := get_snd_cache r.cache r.currentIfdIndex t
        rw [hg] at this
        exact this
      rw [← hr2] at hmem' ⊢
      exact hcons t' d' (by rw [← hc2]; exact hmem')
    | none =>
      simp only [hg] at h
      have hc2 : c2 = r.cache := by
        unfold TileCache.get at hg
        cases hl : mapLookup (r.currentIfdIndex, t) r.cache.cache with
        | none => rw [hl] at hg; injection hg with _ h2; exact h2.symm
        | some w => rw [hl] at hg; cases hg
      cases hlu : loadUncachedTile env r ifd t with
      | error e => simp only [hlu] at h; cases h
      | ok d' =>
        simp only [hlu] at h
        simp only [Except.ok.injEq, Prod.mk.injEq] at h
        obtain ⟨hd, hr2⟩ := h
        refine ⟨congrArg Except.ok hd, c2.put r.currentIfdIndex t d', hr2.symm, ?_⟩
        intro t' dd hmem'
        rw [← hr2] at hmem'
        rcases put_mem _ _ _ _ _ hmem' with he | ho
        · simp only [Prod.mk.injEq] at he
          obtain ⟨⟨_, ht'⟩, hdd⟩ := he
          rw [← hr2, ht', hdd]
          exact hlu
        · rw [hc2] at ho
          rw [← hr2]
          exact hcons t' dd ho

/-- Successful `load_uncached_tile` forces `read_tile` to return the same
data on a consistent reader, with a consistent cache-only state change. -/
theorem readTile_ok_of_load (env : CodecEnv) (r : TiffReaderState) (ifd : IFD)
    (t : Nat) (d : List Nat)
    (hcons : CacheConsistent env r ifd)
    (h : loadUncachedTile env r ifd t = .ok d) :
    ∃ c2, readTile env r ifd t = .ok (d, { r with cache := c2 })
      ∧ CacheConsistent env { r with cache := c2 } ifd := by
  cases hg : r.cache.get r.currentIfdIndex t with
  | mk o c2 =>
    cases o with
    | some v =>
      have hmem : ((r.currentIfdIndex, t), v) ∈ r.cache.cache := get_some_mem _ _ _ _ _ hg
      have hv : v = d := by
        have := hcons t v hmem
        rw [h] at this
        injection this with hh
        exact hh.symm
      have hc2 : c2.cache = r.cache.cache := by
        have := get_snd_cache r.cache r.currentIfdIndex t
        rw [hg] at this
        exact this
      refine ⟨c2, ?_, ?_⟩
      · unfold readTile
        simp only [hg, hv]
      · intro t' d' hmem'
        exact hcons t' d' (by rw [← hc2]; exact hmem')
    | none =>
      have hc2 : c2 = r.cache := by
        unfold TileCache.get at hg
        cases hl : mapLookup (r.currentIfdIndex, t) r.cache.cache with
        | none => rw [hl] at hg; injection hg with _ h2; exact h2.symm
        | some w => rw [hl] at hg; cases hg
      refine ⟨c2.put r.currentIfdIndex t d, ?_, ?_⟩
      · unfold readTile
        simp only [hg, h]
      · intro t' dd hmem'
        rcases put_mem _ _ _ _ _ hmem' with he | ho
        · simp only [Prod.mk.injEq] at he
          obtain ⟨⟨_, ht'⟩, hdd⟩ := he
          rw [ht', hdd]
          exact h
        · rw [hc2] at ho
          exact hcons t' dd ho

/-- On a little-endian file, the sequential and static offset reads either
agree on a value or both fail. -/
theorem offsetRead_agree (f : TFile) (e : IFDEntry) (i : Nat) :
    (∃ w, readTileOffsetSeq .littleEndian f e i = .ok w
        ∧ readTileOffsetStatic e i (some f) = .ok w)
    ∨ ((∀ w, readTileOffsetSeq .littleEndian f e i ≠ .ok w)
        ∧ ∀ w, readTileOffsetStatic e i (some f) ≠ .ok w) := by
  cases hq : readTileOffsetSeq .littleEndian f e i with
  | ok w => exact Or.inl ⟨w, rfl, (seqRead_static_iff f e i w).mp hq⟩
  | error e1 =>
    refine Or.inr ⟨?_, ?_⟩
    · intro w hw
      cases hw
    · intro w hw
      have := (seqRead_static_iff f e i w).mpr hw
      rw [hq] at this
      cases this

/-- The byte-count variant of `offsetRead_agree` (the source bodies are
identical). -/
theorem countRead_agree (f : TFile) (e : IFDEntry) (i : Nat) :
    (∃ w, readTileByteCountSeq .littleEndian f e i = .ok w
        ∧ readTileByteCountStatic e i (some f) = .ok w)
    ∨ ((∀ w, readTileByteCountSeq .littleEndian f e i ≠ .ok w)
        ∧ ∀ w, readTileByteCountStatic e i (some f) ≠ .ok w) :=
  offsetRead_agree f e i

/-- `load_single_tile` projected to its data, written as a match tree over an
explicit configuration (pure reshaping of the definition). -/
theorem loadSingleTile_expand (env : CodecEnv) (t : Nat) (oe ce : IFDEntry)
    (cv pr tw th : Nat) (mm : Option TFile) (bo : ByteOrder) :
    (loadSingleTile env t oe ce ⟨cv, pr, tw, th, mm, bo⟩).map Prod.snd =
      match readTileOffsetStatic oe t mm with
      | .error e => .error e
      | .ok offset =>
        match readTileByteCountStatic ce t mm with
        | .error e => .error e
        | .ok byteCount =>
          if byteCount = 0 then .ok (List.replicate (wrap64 (tw * th)) 0)
          else
            match decompressTile env offset byteCount ⟨cv, pr, tw, th, mm, bo⟩ with
            | .error e => .error e
            | .ok d2 => .ok d2 := by
  unfold loadSingleTile
  cases readTileOffsetStatic oe t mm with
  | error e => rfl
  | ok offset =>
    cases readTileByteCountStatic ce t mm with
    | error e => rfl
    | ok byteCount =>
      by_cases hbc : byteCount = 0
      · simp only [if_pos hbc]
        rfl
      · simp only [if_neg hbc]
        cases decompressTile env offset byteCount ⟨cv, pr, tw, th, mm, bo⟩ with
        | error e => rfl
        | ok d2 => rfl

/-- `decompress_tile` with a present memory map, written without the
configuration record (pure reshaping of the definition). -/
theorem decompressTile_expand (env : CodecEnv) (offset byteCount : Nat)
    (cv pr tw th : Nat) (f : TFile) (bo : ByteOrder) :
    decompressTile env offset byteCount ⟨cv, pr, tw, th, some f, bo⟩ =
      if f.size < wrap64 (offset + byteCount) then
        .error (.outOfBounds "Tile data range exceeds file size")
      else
        match sliceGet f offset (wrap64 (offset + byteCount)) with
        | .error e => .error e
        | .ok compressed =>
          match Compression.fromTag cv with
          | .error e => .error e
          | .ok compression =>
            match compression.decompress env compressed with
            | .error e => .error e
            | .ok decompressed =>
              if pr = 2 then .ok (applyHorizontalPredictor decompressed tw th)
              else .ok decompressed := rfl

/-- Lemma A: on a little-endian reader with the memory map enabled, the
sequential cached-path tile loader and the parallel-path direct loader
succeed on exactly the same tiles with exactly the same bytes (they differ
only in which error they raise). -/
theorem loadUncached_iff_loadDirect (env : CodecEnv) (r : TiffReaderState)
    (ifd : IFD) (td : Dimensions) (t : Nat) (d : List Nat)
    (hbo : r.byteOrder = .littleEndian) (hmm : r.useMmap = true)
    (htd : ifd.tileDimensions = some td) :
    loadUncachedTile env r ifd t = .ok d
      ↔ loadDirect env ifd (mmapOf r) r.byteOrder t = .ok d := by
  have hmof : mmapOf r = some r.file := by
    simp [mmapOf, hmm]
  unfold loadUncachedTile loadDirect
  cases h324 : ifd.getEntry 324 with
  | none => simp
  | some oe =>
    cases h325 : ifd.getEntry 325 with
    | none => simp
    | some ce =>
      have hcfg : ParallelConfig.fromIfd ifd (some r.file) ByteOrder.littleEndian
          = .ok ⟨ifd.compressionTag.getD 1, (ifd.getTagValue 317).getD 1,
                 td.width, td.height, some r.file, ByteOrder.littleEndian⟩ := by
        simp [ParallelConfig.fromIfd, htd]
      rw [hbo, hmof]
      simp only [hcfg, loadSingleTile_expand]
      rcases offsetRead_agree r.file oe t with ⟨o, hq, hs⟩ | ⟨hqn, hsn⟩
      · simp only [hq, hs]
        rcases countRead_agree r.file ce t with ⟨bc, hcq, hcs⟩ | ⟨hcqn, hcsn⟩
        · simp only [hcq, hcs]
          by_cases hbc : bc = 0
          · simp only [if_pos hbc]
            unfold createEmptyTile
            rw [htd]
          · simp only [if_neg hbc]
            rw [decompressTile_expand]
            unfold readCompressedData
            by_cases hsz : r.file.size < wrap64 (o + bc)
            · have hfail : sliceGet r.file o (wrap64 (o + bc))
                  = .error (.rustPanic "slice index out of range") := by
                unfold sliceGet
                rw [if_neg (fun hc => (by omega : ¬ (wrap64 (o + bc) ≤ r.file.size)) hc.2)]
              simp only [if_pos hsz, hfail]
              simp
            · rw [if_neg hsz]
              cases hsg : sliceGet r.file o (wrap64 (o + bc)) with
              | error e1 => simp [hsg]
              | ok compressed =>
                simp only [hsg]
                unfold decompressAndApplyPredictor
                cases hft : Compression.fromTag (ifd.compressionTag.getD 1) with
                | error e1 => simp [hft]
                | ok comp =>
                  simp only [hft]
                  cases hdc : comp.decompress env compressed with
                  | error e1 => simp [hdc]
                  | ok dec =>
                    simp only [hdc]
                    by_cases hpr : (ifd.getTagValue 317).getD 1 = 2
                    · simp only [if_pos hpr]
                      rw [htd]
                    · simp only [if_neg hpr]
        · cases hc1 : readTileByteCountSeq .littleEndian r.file ce t with
          | ok w => exact absurd hc1 (hcqn w)
          | error e1 =>
            cases hc2 : readTileByteCountStatic ce t (some r.file) with
            | ok w => exact absurd hc2 (hcsn w)
            | error e2 => simp [hc1, hc2]
      · cases h1 : readTileOffsetSeq .littleEndian r.file oe t with
        | ok w => exact absurd h1 (hqn w)
        | error e1 =>
          cases h2 : readTileOffsetStatic oe t (some r.file) with
          | ok w => exact absurd h2 (hsn w)
          | error e2 => simp [h1, h2]

/-- `read_pixel_value` written through `coordTile` (pure reshaping of the
definition). -/
theorem readPixelValue_eq (env : CodecEnv) (r : TiffReaderState) (ifd : IFD)
    (x y : Nat) :
    readPixelValue env r ifd x y =
      match coordTile ifd (x, y) with
      | .error e => .error e
      | .ok t =>
        match readTile env r ifd t with
        | .error e => .error e
        | .ok (tileData, r2) =>
          match calculatePixelIndex ifd x y with
          | .error e => .error e
          | .ok p =>
            match readU8FromTile tileData p with
            | .error e => .error e
            | .ok v => .ok (v, r2) := by
  unfold readPixelValue coordTile
  cases validateTiledAccess ifd with
  | error e => rfl
  | ok u =>
    cases validatePixelBounds ifd x y with
    | error e => rfl
    | ok u2 =>
      cases calculateTileIndex ifd x y with
      | error e => rfl
      | ok t =>
        cases readTile env r ifd t with
        | error e => rfl
        | ok p =>
          cases p with
          | mk tileData r2 =>
            cases calculatePixelIndex ifd x y with
            | error e => rfl
            | ok pi2 =>
              cases readU8FromTile tileData pi2 with
              | error e => rfl
              | ok v => rfl

/-- Success inversion of the stateless per-coordinate reference. -/
theorem readPixelSpec_ok_iff (env : CodecEnv) (ifd : IFD) (mm : Option TFile)
    (bo : ByteOrder) (c : Nat × Nat) (v : Nat) :
    readPixelSpec env ifd mm bo c = .ok v
      ↔ ∃ t d p, coordTile ifd c = .ok t
          ∧ loadDirect env ifd mm bo t = .ok d
          ∧ calculatePixelIndex ifd c.1 c.2 = .ok p
          ∧ readU8FromTile d p = .ok v := by
  unfold readPixelSpec
  cases hct : coordTile ifd c with
  | error e => simp [hct]
  | ok t =>
    cases hld : loadDirect env ifd mm bo t with
    | error e =>
      simp only [hct, hld]
      constructor
      · intro h
        cases h
      · rintro ⟨t', d', p', hct', hld', _, _⟩
        have ht' : t' = t := by
          injection hct' with hh
          exact hh.symm
        rw [ht', hld] at hld'
        cases hld'
    | ok d =>
      cases hpi : calculatePixelIndex ifd c.1 c.2 with
      | error e =>
        simp only [hct, hld, hpi]
        constructor
        · intro h
          cases h
        · rintro ⟨t', d', p', hct', hld', hpi', _⟩
          cases hpi'
      | ok p =>
        cases hru : readU8FromTile d p with
        | error e =>
          simp only [hct, hld, hpi, hru]
          constructor
          · intro h
            cases h
          · rintro ⟨t', d', p', hct', hld', hpi', hru'⟩
            have ht' : t' = t := by
              injection hct' with hh
              exact hh.symm
            rw [ht', hld] at hld'
            have hd' : d' = d := by
              injection hld' with hh
              exact hh.symm
            have hp' : p' = p := by
              injection hpi' with hh
              exact hh.symm
            rw [hd', hp', hru] at hru'
            cases hru'
        | ok w =>
          simp only [hct, hld, hpi, hru]
          constructor
          · intro h
            exact ⟨t, d, p, rfl, hld, rfl, hru.trans h⟩
          · rintro ⟨t', d', p', hct', hld', hpi', hru'⟩
            have ht' : t' = t := by
              injection hct' with hh
              exact hh.symm
            rw [ht', hld] at hld'
            have hd' : d' = d := by
              injection hld' with hh
              exact hh.symm
            have hp' : p' = p := by
              injection hpi' with hh
              exact hh.symm
            rw [hd', hp', hru] at hru'
            exact hru'

/-- Lemma S: on a little-endian memory-mapped reader with a consistent
cache, the sequential pixel loop succeeds exactly when the stateless
per-coordinate reference does, with the same values. -/
theorem seq_iff_spec (env : CodecEnv) (ifd : IFD) (td : Dimensions) (f : TFile)
    (htd : ifd.tileDimensions = some td) :
    ∀ (coords : List (Nat × Nat)) (r : TiffReaderState),
      r.byteOrder = .littleEndian → r.useMmap = true → r.file = f →
      CacheConsistent env r ifd →
      ∀ vs, (∃ r2, readPixelsSeq env ifd r coords = .ok (vs, r2))
        ↔ emapM (readPixelSpec env ifd (some f) .littleEndian) coords = .ok vs := by
  intro coords
  induction coords with
  | nil =>
    intro r hbo hmm hfile hcons vs
    constructor
    · rintro ⟨r2, h⟩
      simp only [readPixelsSeq, Except.ok.injEq, Prod.mk.injEq] at h
      rw [← h.1]
      rfl
    · intro h
      have hvs : vs = [] := by
        unfold emapM at h
        injection h with hh
        exact hh.symm
      subst hvs
      exact ⟨r, rfl⟩
  | cons c rest ih =>
    obtain ⟨x, y⟩ := c
    intro r hbo hmm hfile hcons vs
    have hmof : mmapOf r = some f := by
      simp [mmapOf, hmm, hfile]
    constructor
    · rintro ⟨r2, h⟩
      simp only [readPixelsSeq] at h
      cases hpv : readPixelValue env r ifd x y with
      | error e => simp only [hpv] at h; cases h
      | ok pr2 =>
        obtain ⟨v, r3⟩ := pr2
        simp only [hpv] at h
        cases hrest : readPixelsSeq env ifd r3 rest with
        | error e => simp only [hrest] at h; cases h
        | ok pr4 =>
          obtain ⟨vs', r4⟩ := pr4
          simp only [hrest, Except.ok.injEq, Prod.mk.injEq] at h
          obtain ⟨hvs, _⟩ := h
          rw [readPixelValue_eq] at hpv
          cases hct : coordTile ifd (x, y) with
          | error e => simp only [hct] at hpv; cases hpv
          | ok t =>
            simp only [hct] at hpv
            cases hrt : readTile env r ifd t with
            | error e => simp only [hrt] at hpv; cases hpv
            | ok pp =>
              obtain ⟨dd, rr⟩ := pp
              simp only [hrt] at hpv
              cases hpi : calculatePixelIndex ifd x y with
              | error e => simp only [hpi] at hpv; cases hpv
              | ok p =>
                simp only [hpi] at hpv
                cases hru : readU8FromTile dd p with
                | error e => simp only [hru] at hpv; cases hpv
                | ok w =>
                  simp only [hru, Except.ok.injEq, Prod.mk.injEq] at hpv
                  obtain ⟨hwv, hrr⟩ := hpv
                  obtain ⟨hlu, c2, hr3c, hcons3⟩ :=
                    readTile_ok_spec env r ifd t dd rr hcons hrt
                  have hld : loadDirect env ifd (some f) .littleEndian t = .ok dd := by
                    have := (loadUncached_iff_loadDirect env r ifd td t dd
                      hbo hmm htd).mp hlu
                    rw [hmof, hbo] at this
                    exact this
                  have hg1 : readPixelSpec env ifd (some f) .littleEndian (x, y)
                      = .ok w :=
                    (readPixelSpec_ok_iff env ifd (some f) .littleEndian (x, y) w).mpr
                      ⟨t, dd, p, hct, hld, hpi, hru⟩
                  have hbor : rr.byteOrder = .littleEndian := by
                    rw [hr3c]; exact hbo
                  have hmmr : rr.useMmap = true := by
                    rw [hr3c]; exact hmm
                  have hfiler : rr.file = f := by
                    rw [hr3c]; exact hfile
                  rw [← hrr] at hrest
                  have hrest' : emapM (readPixelSpec env ifd (some f) .littleEndian)
                      rest = .ok vs' :=
                    (ih rr hbor hmmr hfiler hcons3 vs').mp ⟨r4, hrest⟩
                  simp only [emapM, hg1, hrest', Except.map]
                  rw [← hvs, hwv]
    · intro h
      simp only [emapM] at h
      cases hg1 : readPixelSpec env ifd (some f) .littleEndian (x, y) with
      | error e => simp only [hg1] at h; cases h
      | ok v =>
        simp only [hg1] at h
        cases hrest : emapM (readPixelSpec env ifd (some f) .littleEndian) rest with
        | error e => simp only [hrest, Except.map] at h; cases h
        | ok vs' =>
          simp only [hrest, Except.map, Except.ok.injEq] at h
          obtain ⟨t, dd, p, hct, hld, hpi, hru⟩ :=
            (readPixelSpec_ok_iff env ifd (some f) .littleEndian (x, y) v).mp hg1
          have hlu : loadUncachedTile env r ifd t = .ok dd := by
            refine (loadUncached_iff_loadDirect env r ifd td t dd hbo hmm htd).mpr ?_
            rw [hmof, hbo]
            exact hld
          obtain ⟨c2, hrt, hcons2⟩ := readTile_ok_of_load env r ifd t dd hcons hlu
          obtain ⟨r4, hrest'⟩ :=
            (ih { r with cache := c2 } hbo hmm hfile hcons2 vs').mpr hrest
          refine ⟨r4, ?_⟩
          have hpv : readPixelValue env r ifd x y
              = .ok (v, { r with cache := c2 }) := by
            rw [readPixelValue_eq]
            simp only [hct, hrt, hpi, hru]
          simp only [readPixelsSeq, hpv, hrest']
          rw [h]

/-! ### The grouping map of the batch path, as pure list operations -/

/-- `.enumerate()` of the coordinate list, starting at `i0`. -/
def enumFrom : Nat → List (Nat × Nat) → List (Nat × Nat × Nat)
  | _, [] => []
  | i, (x, y) :: rest => (i, x, y) :: enumFrom (i + 1) rest

/-- Folding `assocPush` over a list of keyed entries. -/
def pushAll (acc : List (Nat × List (Nat × Nat × Nat))) :
    List (Nat × (Nat × Nat × Nat)) → List (Nat × List (Nat × Nat × Nat))
  | [] => acc
  | (t, e) :: rest => pushAll (assocPush acc t e) rest

/-- Where a group member after one push comes from. -/
theorem assocPush_mem_elem :
    ∀ (acc : List (Nat × List (Nat × Nat × Nat))) (t : Nat) (e : Nat × Nat × Nat)
      (t' : Nat) (ps' : List (Nat × Nat × Nat)),
      (t', ps') ∈ assocPush acc t e →
      ∀ e' ∈ ps', (t' = t ∧ e' = e) ∨ ∃ ps0, (t', ps0) ∈ acc ∧ e' ∈ ps0 := by
  intro acc
  induction acc with
  | nil =>
    intro t e t' ps' hmem e' he'
    simp only [assocPush, List.mem_singleton, Prod.mk.injEq] at hmem
    obtain ⟨ht, hps⟩ := hmem
    rw [hps] at he'
    simp only [List.mem_singleton] at he'
    exact Or.inl ⟨ht, he'⟩
  | cons hd rest ih =>
    intro t e t' ps' hmem e' he'
    obtain ⟨t2, l⟩ := hd
    unfold assocPush at hmem
    by_cases h2 : t2 = t
    · rw [if_pos h2] at hmem
      rcases List.mem_cons.mp hmem with hh | hh
      · obtain ⟨ht, hps⟩ := Prod.mk.injEq .. ▸ hh
        rw [hps] at he'
        rcases List.mem_append.mp he' with hl | hr
        · exact Or.inr ⟨l, by rw [ht]; exact List.mem_cons_self _ _, hl⟩
        · simp only [List.mem_singleton] at hr
          exact Or.inl ⟨ht.trans h2, hr⟩
      · exact Or.inr ⟨ps', List.mem_cons_of_mem _ hh, he'⟩
    · rw [if_neg h2] at hmem
      rcases List.mem_cons.mp hmem with hh | hh
      · obtain ⟨ht, hps⟩ := Prod.mk.injEq .. ▸ hh
        refine Or.inr ⟨ps', ?_, he'⟩
        rw [ht, hps]
        exact List.mem_cons_self _ _
      · rcases ih t e t' ps' hh e' he' with hnew | ⟨ps0, hin, hel⟩
        · exact Or.inl hnew
        · exact Or.inr ⟨ps0, List.mem_cons_of_mem _ hin, hel⟩

/-- Old groups persist (possibly extended) through one push. -/
theorem assocPush_mem_past :
    ∀ (acc : List (Nat × List (Nat × Nat × Nat))) (t : Nat) (e : Nat × Nat × Nat)
      (t' : Nat) (ps0 : List (Nat × Nat × Nat)),
      (t', ps0) ∈ acc →
      ∃ ps', (t', ps') ∈ assocPush acc t e ∧ ∀ e' ∈ ps0, e' ∈ ps' := by
  intro acc
  induction acc with
  | nil =>
    intro t e t' ps0 hmem
    cases hmem
  | cons hd rest ih =>
    intro t e t' ps0 hmem
    obtain ⟨t2, l⟩ := hd
    unfold assocPush
    by_cases h2 : t2 = t
    · rw [if_pos h2]
      rcases List.mem_cons.mp hmem with hh | hh
      · obtain ⟨ht, hps⟩ := Prod.mk.injEq .. ▸ hh
        refine ⟨l ++ [e], ?_, ?_⟩
        · rw [ht]
          exact List.mem_cons_self _ _
        · intro e' he'
          rw [hps] at he'
          exact List.mem_append.mpr (Or.inl he')
      · exact ⟨ps0, List.mem_cons_of_mem _ hh, fun e' he' => he'⟩
    · rw [if_neg h2]
      rcases List.mem_cons.mp hmem with hh | hh
      · exact ⟨ps0, List.mem_cons.mpr (Or.inl hh), fun e' he' => he'⟩
      · obtain ⟨ps', hin, hsub⟩ := ih t e t' ps0 hh
        exact ⟨ps', List.mem_cons_of_mem _ hin, hsub⟩

/-- The pushed entry lands in a group under its key. -/
theorem assocPush_mem_new :
    ∀ (acc : List (Nat × List (Nat × Nat × Nat))) (t : Nat) (e : Nat × Nat × Nat),
      ∃ ps', (t, ps') ∈ assocPush acc t e ∧ e ∈ ps' := by
  intro acc
  induction acc with
  | nil =>
    intro t e
    exact ⟨[e], List.mem_singleton.mpr rfl, List.mem_singleton.mpr rfl⟩
  | cons hd rest ih =>
    intro t e
    obtain ⟨t2, l⟩ := hd
    unfold assocPush
    by_cases h2 : t2 = t
    · rw [if_pos h2]
      refine ⟨l ++ [e], ?_, List.mem_append.mpr (Or.inr (List.mem_singleton.mpr rfl))⟩
      rw [← h2]
      exact List.mem_cons_self _ _
    · rw [if_neg h2]
      obtain ⟨ps', hin, hel⟩ := ih t e
      exact ⟨ps', List.mem_cons_of_mem _ hin, hel⟩

/-- Pushes keep every group's member list nonempty. -/
theorem assocPush_nonempty :
    ∀ (acc : List (Nat × List (Nat × Nat × Nat))) (t : Nat) (e : Nat × Nat × Nat),
      (∀ p ∈ acc, p.2 ≠ []) →
      ∀ p ∈ assocPush acc t e, p.2 ≠ [] := by
  intro acc
  induction acc with
  | nil =>
    intro t e _ p hp
    simp only [assocPush, List.mem_singleton] at hp
    rw [hp]
    simp
  | cons hd rest ih =>
    intro t e hne p hp
    obtain ⟨t2, l⟩ := hd
    unfold assocPush at hp
    by_cases h2 : t2 = t
    · rw [if_pos h2] at hp
      rcases List.mem_cons.mp hp with hh | hh
      · rw [hh]
        simp
      · exact hne p (List.mem_cons_of_mem _ hh)
    · rw [if_neg h2] at hp
      rcases List.mem_cons.mp hp with hh | hh
      · rw [hh]
        exact hne _ (List.mem_cons_self _ _)
      · exact ih t e (fun q hq => hne q (List.mem_cons_of_mem _ hq)) p hh

/-- Where a group member of the full grouping comes from. -/
theorem pushAll_mem_elem :
    ∀ (l : List (Nat × (Nat × Nat × Nat))) (acc : List (Nat × List (Nat × Nat × Nat)))
      (t' : Nat) (ps' : List (Nat × Nat × Nat)),
      (t', ps') ∈ pushAll acc l →
      ∀ e' ∈ ps', (t', e') ∈ l ∨ ∃ ps0, (t', ps0) ∈ acc ∧ e' ∈ ps0 := by
  intro l
  induction l with
  | nil =>
    intro acc t' ps' hmem e' he'
    exact Or.inr ⟨ps', hmem, he'⟩
  | cons hd rest ih =>
    intro acc t' ps' hmem e' he'
    obtain ⟨t, e⟩ := hd
    rcases ih (assocPush acc t e) t' ps' hmem e' he' with hin | ⟨ps0, hpin, hel⟩
    · exact Or.inl (List.mem_cons_of_mem _ hin)
    · rcases assocPush_mem_elem acc t e t' ps0 hpin e' hel with ⟨ht, he⟩ | hacc
      · rw [ht, he]
        exact Or.inl (List.mem_cons_self _ _)
      · exact Or.inr hacc

/-- Old groups persist through the full grouping. -/
theorem pushAll_mem_past :
    ∀ (l : List (Nat × (Nat × Nat × Nat))) (acc : List (Nat × List (Nat × Nat × Nat)))
      (t' : Nat) (ps0 : List (Nat × Nat × Nat)),
      (t', ps0) ∈ acc →
      ∃ ps', (t', ps') ∈ pushAll acc l ∧ ∀ e' ∈ ps0, e' ∈ ps' := by
  intro l
  induction l with
  | nil =>
    intro acc t' ps0 hmem
    exact ⟨ps0, hmem, fun e' he' => he'⟩
  | cons hd rest ih =>
    intro acc t' ps0 hmem
    obtain ⟨t, e⟩ := hd
    obtain ⟨ps1, hin1, hsub1⟩ := assocPush_mem_past acc t e t' ps0 hmem
    obtain ⟨ps2, hin2, hsub2⟩ := ih (assocPush acc t e) t' ps1 hin1
    exact ⟨ps2, hin2, fun e' he' => hsub2 e' (hsub1 e' he')⟩

/-- Every pushed entry ends up in a group under its key. -/
theorem pushAll_cover :
    ∀ (l : List (Nat × (Nat × Nat × Nat))) (acc : List (Nat × List (Nat × Nat × Nat)))
      (t : Nat) (e : Nat × Nat × Nat), (t, e) ∈ l →
      ∃ ps, (t, ps) ∈ pushAll acc l ∧ e ∈ ps := by
  intro l
  induction l with
  | nil =>
    intro acc t e hmem
    cases hmem
  | cons hd rest ih =>
    intro acc t e hmem
    obtain ⟨t0, e0⟩ := hd
    rcases List.mem_cons.mp hmem with hh | hh
    · obtain ⟨ht, he⟩ := Prod.mk.injEq .. ▸ hh
      obtain ⟨ps1, hin1, hel1⟩ := assocPush_mem_new acc t0 e0
      obtain ⟨ps2, hin2, hsub2⟩ := pushAll_mem_past rest (assocPush acc t0 e0) t0 ps1 hin1
      refine ⟨ps2, ?_, ?_⟩
      · rw [ht]
        exact hin2
      · rw [he]
        exact hsub2 e0 hel1
    · exact ih (assocPush acc t0 e0) t e hh

/-- Member lists of the full grouping are nonempty (over nonempty seeds). -/
theorem pushAll_nonempty :
    ∀ (l : List (Nat × (Nat × Nat × Nat))) (acc : List (Nat × List (Nat × Nat × Nat))),
      (∀ p ∈ acc, p.2 ≠ []) →
      ∀ p ∈ pushAll acc l, p.2 ≠ [] := by
  intro l
  induction l with
  | nil =>
    intro acc hne p hp
    exact hne p hp
  | cons hd rest ih =>
    intro acc hne p hp
    obtain ⟨t, e⟩ := hd
    exact ih (assocPush acc t e) (assocPush_nonempty acc t e hne) p hp

/-- The grouping loop written through `coordTile` (pure reshaping). -/
theorem buildGo_eq (ifd : IFD) (i x y : Nat) (rest : List (Nat × Nat))
    (acc : List (Nat × List (Nat × Nat × Nat))) :
    buildTilePixelsGo ifd i ((x, y) :: rest) acc =
      match coordTile ifd (x, y) with
      | .error e => .error e
      | .ok t => buildTilePixelsGo ifd (i + 1) rest (assocPush acc t (i, x, y)) := by
  cases h1 : validateTiledAccess ifd with
  | error e => simp only [buildTilePixelsGo, coordTile, h1]
  | ok u =>
    cases h2 : validatePixelBounds ifd x y with
    | error e => simp only [buildTilePixelsGo, coordTile, h1, h2]
    | ok u2 =>
      cases h3 : calculateTileIndex ifd x y with
      | error e => simp only [buildTilePixelsGo, coordTile, h1, h2, h3]
      | ok t => simp only [buildTilePixelsGo, coordTile, h1, h2, h3]

/-- Success characterization of the grouping loop: a tile index for every
coordinate, and the groups are the pushed enumeration. -/
theorem buildGo_ok_iff (ifd : IFD) :
    ∀ (coords : List (Nat × Nat)) (i : Nat) (acc : List (Nat × List (Nat × Nat × Nat)))
      (groups : List (Nat × List (Nat × Nat × Nat))),
      buildTilePixelsGo ifd i coords acc = .ok groups
        ↔ ∃ ts, List.Forall₂ (fun c t => coordTile ifd c = .ok t) coords ts
            ∧ groups = pushAll acc (ts.zip (enumFrom i coords)) := by
  intro coords
  induction coords with
  | nil =>
    intro i acc groups
    constructor
    · intro h
      refine ⟨[], List.Forall₂.nil, ?_⟩
      have : acc = groups := by
        unfold buildTilePixelsGo at h
        injection h
      rw [← this]
      rfl
    · rintro ⟨ts, hf, hg⟩
      cases hf
      rw [hg]
      rfl
  | cons c rest ih =>
    intro i acc groups
    obtain ⟨x, y⟩ := c
    rw [buildGo_eq]
    constructor
    · intro h
      cases hct : coordTile ifd (x, y) with
      | error e => simp only [hct] at h; cases h
      | ok t =>
        simp only [hct] at h
        obtain ⟨ts', hf', hg'⟩ := (ih (i + 1) (assocPush acc t (i, x, y)) groups).mp h
        refine ⟨t :: ts', List.Forall₂.cons hct hf', ?_⟩
        rw [hg']
        rfl
    · rintro ⟨ts, hf, hg⟩
      cases hf with
      | cons hct hf' =>
        simp only [hct]
        refine (ih (i + 1) (assocPush acc _ (i, x, y)) groups).mpr ⟨_, hf', ?_⟩
        rw [hg]
        rfl

/-- Recover the position of a zipped enumeration member. -/
theorem mem_zip_enumFrom :
    ∀ (coords : List (Nat × Nat)) (ts : List Nat) (i0 t : Nat) (e : Nat × Nat × Nat),
      (t, e) ∈ ts.zip (enumFrom i0 coords) →
      ∃ j, ts.get? j = some t ∧ coords.get? j = some (e.2.1, e.2.2) ∧ e.1 = i0 + j := by
  intro coords
  induction coords with
  | nil =>
    intro ts i0 t e hmem
    cases ts <;> cases hmem
  | cons c rest ih =>
    intro ts i0 t e hmem
    obtain ⟨x, y⟩ := c
    cases ts with
    | nil => cases hmem
    | cons t0 ts' =>
      simp only [enumFrom, List.zip_cons_cons] at hmem
      rcases List.mem_cons.mp hmem with hh | hh
      · obtain ⟨ht, he⟩ := Prod.mk.injEq .. ▸ hh
        refine ⟨0, by simp [ht], by simp [he], by simp [he]⟩
      · obtain ⟨j, hts, hcs, hidx⟩ := ih ts' (i0 + 1) t e hh
        exact ⟨j + 1, by simpa using hts, by simpa using hcs, by omega⟩

/-- The `j`-th zipped enumeration member. -/
theorem zip_enumFrom_get :
    ∀ (coords : List (Nat × Nat)) (ts : List Nat) (i0 j t x y : Nat),
      ts.get? j = some t → coords.get? j = some (x, y) →
      (t, (i0 + j, x, y)) ∈ ts.zip (enumFrom i0 coords) := by
  intro coords
  induction coords with
  | nil =>
    intro ts i0 j t x y _ hcs
    simp at hcs
  | cons c rest ih =>
    intro ts i0 j t x y hts hcs
    obtain ⟨x0, y0⟩ := c
    cases ts with
    | nil => simp at hts
    | cons t0 ts' =>
      cases j with
      | zero =>
        simp only [List.get?] at hts hcs
        obtain ⟨hx, hy⟩ : x0 = x ∧ y0 = y := by
          have := Option.some.injEq .. ▸ hcs
          exact ⟨congrArg Prod.fst this, congrArg Prod.snd this⟩
        have ht0 : t0 = t := by injection hts
        simp only [enumFrom, List.zip_cons_cons]
        rw [← hx, ← hy, ← ht0, Nat.add_zero]
        exact List.mem_cons_self _ _
      | succ j' =>
        simp only [List.get?] at hts hcs
        have := ih ts' (i0 + 1) j' t x y hts hcs
        simp only [enumFrom, List.zip_cons_cons]
        refine List.mem_cons_of_mem _ ?_
        have harith : i0 + 1 + j' = i0 + (j' + 1) := by omega
        rw [← harith]
        exact this

/-- `Forall₂` projected at a position of the left list. -/
theorem forall₂_get_right {α β : Type} {R : α → β → Prop} :
    ∀ {l1 : List α} {l2 : List β}, List.Forall₂ R l1 l2 →
      ∀ j a, l1.get? j = some a → ∃ b, l2.get? j = some b ∧ R a b := by
  intro l1 l2 h
  induction h with
  | nil =>
    intro j a ha
    simp at ha
  | cons hr _ ih =>
    intro j a ha
    cases j with
    | zero =>
      simp only [List.get?] at ha ⊢
      have := Option.some.injEq .. ▸ ha
      exact ⟨_, rfl, this ▸ hr⟩
    | succ j' =>
      simp only [List.get?] at ha ⊢
      exact ih j' a ha

/-- Build a `Forall₂` from lengths and positions. -/
theorem forall₂_of_get {α β : Type} {R : α → β → Prop} :
    ∀ (l1 : List α) (l2 : List β), l1.length = l2.length →
      (∀ j a b, l1.get? j = some a → l2.get? j = some b → R a b) →
      List.Forall₂ R l1 l2 := by
  intro l1
  induction l1 with
  | nil =>
    intro l2 hlen _
    cases l2 with
    | nil => exact List.Forall₂.nil
    | cons b bs => simp at hlen
  | cons a as2 ih =>
    intro l2 hlen hpt
    cases l2 with
    | nil => simp at hlen
    | cons b bs =>
      refine List.Forall₂.cons (hpt 0 a b rfl rfl) (ih bs ?_ ?_)
      · simpa using hlen
      · intro j a' b' ha hb
        exact hpt (j + 1) a' b' ha hb

/-- Success characterization of the parallel tile-loading loop. -/
theorem loadTilesGo_iff (env : CodecEnv) (oe ce : IFDEntry) (config : ParallelConfig) :
    ∀ (keys : List Nat) (tiles : List (List Nat)),
      loadTilesGo env oe ce config keys = .ok tiles
        ↔ List.Forall₂
            (fun t d => (loadSingleTile env t oe ce config).map Prod.snd = .ok d)
            keys tiles := by
  intro keys
  induction keys with
  | nil =>
    intro tiles
    constructor
    · intro h
      have : tiles = [] := by
        unfold loadTilesGo at h
        injection h with hh
        exact hh.symm
      rw [this]
      exact List.Forall₂.nil
    · intro h
      cases h
      rfl
  | cons t ks ih =>
    intro tiles
    constructor
    · intro h
      unfold loadTilesGo at h
      cases hl : loadSingleTile env t oe ce config with
      | error e => rw [hl] at h; cases h
      | ok td2 =>
        rw [hl] at h
        cases hr : loadTilesGo env oe ce config ks with
        | error e => rw [hr] at h; cases h
        | ok ds =>
          rw [hr] at h
          have : td2.2 :: ds = tiles := by
            simp only [Except.map] at h
            injection h
          rw [← this]
          exact List.Forall₂.cons (by rw [hl]; rfl) ((ih ds).mp hr)
    · intro h
      cases h with
      | cons hh ht =>
        unfold loadTilesGo
        cases hl : loadSingleTile env t oe ce config with
        | error e => rw [hl] at hh; simp [Except.map] at hh
        | ok td2 =>
          rw [hl] at hh
          simp only [Except.map, Except.ok.injEq] at hh
          rw [(ih _).mpr ht]
          simp only [Except.map, Except.ok.injEq]
          rw [hh]

/-- `assocFind` over a zip hits the pointwise property of the first match. -/
theorem assocFind_zip {P : Nat → List Nat → Prop} :
    ∀ (keys : List Nat) (tiles : List (List Nat)),
      List.Forall₂ P keys tiles →
      ∀ t ∈ keys, ∃ d, assocFind (keys.zip tiles) t = some d ∧ P t d := by
  intro keys tiles h
  induction h with
  | nil =>
    intro t ht
    cases ht
  | @cons k d ks ds hp hrest ih =>
    intro t ht
    by_cases hk : k = t
    · refine ⟨d, ?_, hk ▸ hp⟩
      simp [assocFind, List.find?, hk]
    · rcases List.mem_cons.mp ht with hh | hh
      · exact absurd hh.symm hk
      · obtain ⟨d2, hfind, hp2⟩ := ih t hh
        refine ⟨d2, ?_, hp2⟩
        simp only [assocFind, List.zip_cons_cons, List.find?] at hfind ⊢
        have hbeq : (k == t) = false := beq_eq_false_iff_ne.mpr hk
        rw [hbeq]
        exact hfind

/-- Pointwise behaviour of the per-group extraction loop when every member
extracts the uniform value `v` of its result slot. -/
theorem scatterPixels_pointwise (ifd : IFD) (tile : List Nat) (v : Nat → Nat) :
    ∀ (ps : List (Nat × Nat × Nat)) (results : List Nat),
      (∀ e ∈ ps, ∃ p, calculatePixelIndex ifd e.2.1 e.2.2 = .ok p
          ∧ readU8FromTile tile p = .ok (v e.1)) →
      ∃ out, scatterPixels ifd tile ps results = .ok out
        ∧ out.length = results.length
        ∧ (∀ j, (∃ e ∈ ps, e.1 = j) → j < results.length → out.get? j = some (v j))
        ∧ (∀ j, (∀ e ∈ ps, e.1 ≠ j) → out.get? j = results.get? j) := by
  intro ps
  induction ps with
  | nil =>
    intro results _
    refine ⟨results, rfl, rfl, ?_, fun j _ => rfl⟩
    rintro j ⟨e, he, _⟩ _
    cases he
  | cons e0 ps' ih =>
    intro results hall
    obtain ⟨i, x, y⟩ := e0
    obtain ⟨p0, hpi, hru⟩ := hall (i, x, y) (List.mem_cons_self _ _)
    obtain ⟨out, hs, hlen, htouch, huntouch⟩ :=
      ih (results.set i (v i)) (fun e he => hall e (List.mem_cons_of_mem _ he))
    refine ⟨out, ?_, ?_, ?_, ?_⟩
    · simp only [scatterPixels, hpi, hru]
      exact hs
    · rw [hlen, List.length_set]
    · intro j hj hjlt
      by_cases hj' : ∃ e ∈ ps', e.1 = j
      · exact htouch j hj' (by rw [List.length_set]; exact hjlt)
      · have hji : i = j := by
          obtain ⟨e, he, hej⟩ := hj
          rcases List.mem_cons.mp he with hh | hh
          · rw [hh] at hej
            exact hej
          · exact absurd ⟨e, hh, hej⟩ hj'
        have huj : out.get? j = (results.set i (v i)).get? j := by
          refine huntouch j ?_
          intro e he hej
          exact hj' ⟨e, he, hej⟩
        rw [huj, hji, List.get?_set_eq_of_lt _ (hji ▸ hjlt)]
    · intro j hunt
      have hne : i ≠ j := hunt (i, x, y) (List.mem_cons_self _ _)
      have huj : out.get? j = (results.set i (v i)).get? j := by
        refine huntouch j ?_
        intro e he hej
        exact hunt e (List.mem_cons_of_mem _ he) hej
      rw [huj, List.get?_set_ne _ _ hne]

/-- Pointwise behaviour of the group loop of `read_pixels_batch`. -/
theorem scatterGroups_pointwise (ifd : IFD) (tileMap : List (Nat × List Nat))
    (v : Nat → Nat) :
    ∀ (groups : List (Nat × List (Nat × Nat × Nat))) (results : List Nat),
      (∀ gp ∈ groups, ∃ tile, assocFind tileMap gp.1 = some tile
          ∧ ∀ e ∈ gp.2, ∃ p, calculatePixelIndex ifd e.2.1 e.2.2 = .ok p
              ∧ readU8FromTile tile p = .ok (v e.1)) →
      ∃ out, scatterGroups ifd tileMap groups results = .ok out
        ∧ out.length = results.length
        ∧ (∀ j, (∃ gp ∈ groups, ∃ e ∈ gp.2, e.1 = j) → j < results.length →
            out.get? j = some (v j))
        ∧ (∀ j, (∀ gp ∈ groups, ∀ e ∈ gp.2, e.1 ≠ j) →
            out.get? j = results.get? j) := by
  intro groups
  induction groups with
  | nil =>
    intro results _
    refine ⟨results, rfl, rfl, ?_, fun j _ => rfl⟩
    rintro j ⟨gp, hgp, _⟩ _
    cases hgp
  | cons gp0 groups' ih =>
    intro results hall
    obtain ⟨t, ps⟩ := gp0
    obtain ⟨tile, hfind, hmem⟩ := hall (t, ps) (List.mem_cons_self _ _)
    obtain ⟨mid, hsp, hmlen, hmtouch, hmuntouch⟩ :=
      scatterPixels_pointwise ifd tile v ps results hmem
    obtain ⟨out, hsg, hlen, htouch, huntouch⟩ :=
      ih mid (fun gp hgp => hall gp (List.mem_cons_of_mem _ hgp))
    refine ⟨out, ?_, hlen.trans hmlen, ?_, ?_⟩
    · simp only [scatterGroups, hfind, hsp]
      exact hsg
    · intro j hj hjlt
      by_cases hj' : ∃ gp ∈ groups', ∃ e ∈ gp.2, e.1 = j
      · exact htouch j hj' (by rw [hmlen]; exact hjlt)
      · obtain ⟨gp, hgp, e, he, hej⟩ := hj
        have hgp0 : (gp.1, gp.2) = (t, ps) := by
          rcases List.mem_cons.mp hgp with hh | hh
          · rw [← hh]
          · exact absurd ⟨gp, hh, e, he, hej⟩ hj'
        have hps : e ∈ ps := by
          have := congrArg Prod.snd hgp0
          simp only at this
          rw [← this]
          exact he
        have hout : out.get? j = mid.get? j := by
          refine huntouch j ?_
          intro gp2 hgp2 e2 he2 hej2
          exact hj' ⟨gp2, hgp2, e2, he2, hej2⟩
        rw [hout]
        exact hmtouch j ⟨e, hps, hej⟩ hjlt
    · intro j hunt
      have hout : out.get? j = mid.get? j := by
        refine huntouch j ?_
        intro gp2 hgp2 e2 he2 hej2
        exact hunt gp2 (List.mem_cons_of_mem _ hgp2) e2 he2 hej2
      rw [hout]
      refine hmuntouch j ?_
      intro e he hej
      exact hunt (t, ps) (List.mem_cons_self _ _) e he hej

/-- Success of the per-group extraction loop forces every member to
extract. -/
theorem scatterPixels_inv (ifd : IFD) (tile : List Nat) :
    ∀ (ps : List (Nat × Nat × Nat)) (results out : List Nat),
      scatterPixels ifd tile ps results = .ok out →
      ∀ e ∈ ps, ∃ p w, calculatePixelIndex ifd e.2.1 e.2.2 = .ok p
        ∧ readU8FromTile tile p = .ok w := by
  intro ps
  induction ps with
  | nil =>
    intro results out _ e he
    cases he
  | cons e0 ps' ih =>
    intro results out h e he
    obtain ⟨i, x, y⟩ := e0
    cases hpi : calculatePixelIndex ifd x y with
    | error er => simp only [scatterPixels, hpi] at h; cases h
    | ok p =>
      cases hru : readU8FromTile tile p with
      | error er => simp only [scatterPixels, hpi, hru] at h; cases h
      | ok w =>
        simp only [scatterPixels, hpi, hru] at h
        rcases List.mem_cons.mp he with hh | hh
        · rw [hh]
          exact ⟨p, w, hpi, hru⟩
        · exact ih (results.set i w) out h e hh

/-- Success of the group loop forces every group to find its tile and every
member to extract. -/
theorem scatterGroups_inv (ifd : IFD) (tileMap : List (Nat × List Nat)) :
    ∀ (groups : List (Nat × List (Nat × Nat × Nat))) (results out : List Nat),
      scatterGroups ifd tileMap groups results = .ok out →
      ∀ gp ∈ groups, ∃ tile, assocFind tileMap gp.1 = some tile
        ∧ ∀ e ∈ gp.2, ∃ p w, calculatePixelIndex ifd e.2.1 e.2.2 = .ok p
            ∧ readU8FromTile tile p = .ok w := by
  intro groups
  induction groups with
  | nil =>
    intro results out _ gp hgp
    cases hgp
  | cons gp0 groups' ih =>
    intro results out h gp hgp
    obtain ⟨t, ps⟩ := gp0
    cases hfind : assocFind tileMap t with
    | none => simp only [scatterGroups, hfind] at h; cases h
    | some tile =>
      cases hsp : scatterPixels ifd tile ps results with
      | error er => simp only [scatterGroups, hfind, hsp] at h; cases h
      | ok mid =>
        simp only [scatterGroups, hfind, hsp] at h
        rcases List.mem_cons.mp hgp with hh | hh
        · rw [hh]
          exact ⟨tile, hfind, scatterPixels_inv ifd tile ps results mid hsp⟩
        · exact ih mid out h gp hh

/-- Transport a `Forall₂` along a pointwise existence. -/
theorem forall₂_exists_right {α β γ : Type} {R : α → β → Prop} {S : α → γ → Prop} :
    ∀ {l1 : List α} {l2 : List β}, List.Forall₂ R l1 l2 →
      (∀ a b, R a b → ∃ cc, S a cc) → ∃ l3, List.Forall₂ S l1 l3 := by
  intro l1 l2 h
  induction h with
  | nil => exact fun _ => ⟨[], List.Forall₂.nil⟩
  | @cons a b as2 bs hr _ ih =>
    intro hex
    obtain ⟨cc, hcc⟩ := hex a b hr
    obtain ⟨l3, hl3⟩ := ih hex
    exact ⟨cc :: l3, List.Forall₂.cons hcc hl3⟩

/-- Choose a pointwise witness list. -/
theorem exists_forall₂_of_mem {α β : Type} {P : α → β → Prop} :
    ∀ (l : List α), (∀ a ∈ l, ∃ b, P a b) → ∃ l2, List.Forall₂ P l l2 := by
  intro l
  induction l with
  | nil => exact fun _ => ⟨[], List.Forall₂.nil⟩
  | cons a as2 ih =>
    intro hex
    obtain ⟨b, hb⟩ := hex a (List.mem_cons_self _ _)
    obtain ⟨l2, hl2⟩ := ih (fun a' ha' => hex a' (List.mem_cons_of_mem _ ha'))
    exact ⟨b :: l2, List.Forall₂.cons hb hl2⟩

/-- The reference value of the `j`-th coordinate (`0` off the end or on
error); the uniform slot-value function of the scatter loops. -/
def specAt (env : CodecEnv) (ifd : IFD) (mm : Option TFile) (bo : ByteOrder)
    (coords : List (Nat × Nat)) (j : Nat) : Nat :=
  match coords.get? j with
  | some c =>
    match readPixelSpec env ifd mm bo c with
    | .ok w => w
    | .error _ => 0
  | Option.none => 0

/-- The parallel tile fetch succeeds exactly when the direct loader succeeds
on every requested tile, with the loaded bytes in request order. -/
theorem readTilesParallelDirect_iff (env : CodecEnv) (ifd : IFD) (td : Dimensions)
    (oe ce : IFDEntry) (mm : Option TFile) (bo : ByteOrder)
    (htd : ifd.tileDimensions = some td)
    (hoe : ifd.getEntry 324 = some oe) (hce : ifd.getEntry 325 = some ce) :
    ∀ (keys : List Nat) (tiles : List (List Nat)),
      readTilesParallelDirect env ifd keys mm bo = .ok tiles
        ↔ List.Forall₂ (fun t d => loadDirect env ifd mm bo t = .ok d) keys tiles := by
  have hcfg : ParallelConfig.fromIfd ifd mm bo
      = .ok ⟨ifd.compressionTag.getD 1, (ifd.getTagValue 317).getD 1,
             td.width, td.height, mm, bo⟩ := by
    simp [ParallelConfig.fromIfd, htd]
  have hloadeq : ∀ t, loadDirect env ifd mm bo t
      = (loadSingleTile env t oe ce
          ⟨ifd.compressionTag.getD 1, (ifd.getTagValue 317).getD 1,
           td.width, td.height, mm, bo⟩).map Prod.snd := by
    intro t
    unfold loadDirect
    simp only [hoe, hce, hcfg]
  intro keys tiles
  unfold readTilesParallelDirect
  simp only [hoe, hce, hcfg]
  rw [loadTilesGo_iff]
  constructor
  · intro h
    refine h.imp ?_
    intro a b hab
    rw [hloadeq a]
    exact hab
  · intro h
    refine h.imp ?_
    intro a b hab
    rw [← hloadeq a]
    exact hab

/-- Lemma B: on any reader whose tiled IFD has offset and byte-count
entries, the batch path succeeds exactly when the stateless per-coordinate
reference does, with the same values (the grouping and scattering are
invisible). -/
theorem batch_iff_spec (env : CodecEnv) (r : TiffReaderState) (ifd : IFD)
    (td : Dimensions) (oe ce : IFDEntry)
    (htd : ifd.tileDimensions = some td)
    (hoe : ifd.getEntry 324 = some oe) (hce : ifd.getEntry 325 = some ce)
    (coords : List (Nat × Nat)) (vs : List Nat) :
    readPixelsBatch env r ifd coords = .ok vs
      ↔ emapM (readPixelSpec env ifd (mmapOf r) r.byteOrder) coords = .ok vs := by
  constructor
  · intro h
    unfold readPixelsBatch buildTilePixels at h
    cases hbt : buildTilePixelsGo ifd 0 coords [] with
    | error e => simp only [hbt] at h; cases h
    | ok groups =>
      simp only [hbt] at h
      obtain ⟨ts, hfts, hgroups⟩ := (buildGo_ok_iff ifd coords 0 [] groups).mp hbt
      cases hrt : readTilesParallelDirect env ifd (List.map Prod.fst groups)
          (mmapOf r) r.byteOrder with
      | error e => simp only [hrt] at h; cases h
      | ok tiles =>
        simp only [hrt] at h
        have hloadf := (readTilesParallelDirect_iff env ifd td oe ce (mmapOf r)
          r.byteOrder htd hoe hce (List.map Prod.fst groups) tiles).mp hrt
        have hinv := scatterGroups_inv ifd ((List.map Prod.fst groups).zip tiles)
          groups (List.replicate coords.length 0) vs h
        have hkey : ∀ gp ∈ groups, ∃ tile,
            assocFind ((List.map Prod.fst groups).zip tiles) gp.1 = some tile
            ∧ ∀ e ∈ gp.2, ∃ p, calculatePixelIndex ifd e.2.1 e.2.2 = .ok p
                ∧ readU8FromTile tile p
                    = .ok (specAt env ifd (mmapOf r) r.byteOrder coords e.1) := by
          intro gp hgp
          obtain ⟨t, ps⟩ := gp
          obtain ⟨tile0, hfind0, hext⟩ := hinv (t, ps) hgp
          obtain ⟨dt, hfind, hload⟩ := assocFind_zip (List.map Prod.fst groups)
            tiles hloadf t (List.mem_map_of_mem Prod.fst hgp)
          have htile : tile0 = dt := Option.some.inj (hfind0.symm.trans hfind)
          rw [htile] at hext
          refine ⟨dt, hfind, ?_⟩
          intro e he
          obtain ⟨p, w, hpix, hru⟩ := hext e he
          have hmemg : (t, ps) ∈ pushAll [] (ts.zip (enumFrom 0 coords)) := by
            rw [← hgroups]
            exact hgp
          have hmemp : (t, e) ∈ ts.zip (enumFrom 0 coords) := by
            rcases pushAll_mem_elem (ts.zip (enumFrom 0 coords)) [] t ps hmemg e he
              with hin | ⟨ps0, h0, _⟩
            · exact hin
            · cases h0
          obtain ⟨j, hts, hcs, hidx⟩ := mem_zip_enumFrom coords ts 0 t e hmemp
          have hjidx : e.1 = j := by omega
          obtain ⟨t2, hts2, hct2⟩ := forall₂_get_right hfts j (e.2.1, e.2.2) hcs
          have ht2 : t2 = t := by
            rw [hts] at hts2
            injection hts2 with hh
            exact hh.symm
          rw [ht2] at hct2
          have hg : readPixelSpec env ifd (mmapOf r) r.byteOrder (e.2.1, e.2.2)
              = .ok w :=
            (readPixelSpec_ok_iff env ifd (mmapOf r) r.byteOrder (e.2.1, e.2.2) w).mpr
              ⟨t, dt, p, hct2, hload, hpix, hru⟩
          have hspec : specAt env ifd (mmapOf r) r.byteOrder coords e.1 = w := by
            unfold specAt
            simp only [hjidx, hcs, hg]
          rw [hspec]
          exact ⟨p, hpix, hru⟩
        obtain ⟨out, hsc, hlen, htouch, _⟩ :=
          scatterGroups_pointwise ifd ((List.map Prod.fst groups).zip tiles)
            (specAt env ifd (mmapOf r) r.byteOrder coords) groups
            (List.replicate coords.length 0) hkey
        have hout : out = vs := by
          rw [hsc] at h
          injection h
        have hlenv : vs.length = coords.length := by
          rw [← hout, hlen, List.length_replicate]
        refine (emapM_ok_iff (readPixelSpec env ifd (mmapOf r) r.byteOrder)
          coords vs).mpr (forall₂_of_get coords vs hlenv.symm ?_)
        intro j c w hc hw
        obtain ⟨tj, htsj, hctj⟩ := forall₂_get_right hfts j c hc
        have hmemp : (tj, (0 + j, c.1, c.2)) ∈ ts.zip (enumFrom 0 coords) :=
          zip_enumFrom_get coords ts 0 j tj c.1 c.2 htsj hc
        obtain ⟨ps2, hgpmem, hemem⟩ :=
          pushAll_cover (ts.zip (enumFrom 0 coords)) [] tj (0 + j, c.1, c.2) hmemp
        rw [← hgroups] at hgpmem
        obtain ⟨tile, hfind, hval⟩ := hkey (tj, ps2) hgpmem
        obtain ⟨p, hpix, hru⟩ := hval (0 + j, c.1, c.2) hemem
        obtain ⟨dt, hfind2, hload⟩ := assocFind_zip (List.map Prod.fst groups)
          tiles hloadf tj (List.mem_map_of_mem Prod.fst hgpmem)
        have htile : tile = dt := Option.some.inj (hfind.symm.trans hfind2)
        rw [htile] at hru
        simp only [Nat.zero_add] at hru
        have hg : readPixelSpec env ifd (mmapOf r) r.byteOrder c
            = .ok (specAt env ifd (mmapOf r) r.byteOrder coords j) :=
          (readPixelSpec_ok_iff env ifd (mmapOf r) r.byteOrder c
            (specAt env ifd (mmapOf r) r.byteOrder coords j)).mpr
            ⟨tj, dt, p, hctj, hload, hpix, hru⟩
        have hjlt : j < coords.length := (List.get?_eq_some.mp hc).1
        have htch : out.get? j
            = some (specAt env ifd (mmapOf r) r.byteOrder coords j) :=
          htouch j ⟨(tj, ps2), hgpmem, (0 + j, c.1, c.2), hemem, Nat.zero_add j⟩
            (by rw [List.length_replicate]; exact hjlt)
        have hvj : vs.get? j
            = some (specAt env ifd (mmapOf r) r.byteOrder coords j) := by
          rw [← hout]
          exact htch
        rw [hw] at hvj
        injection hvj with hh
        rw [hh]
        exact hg
  · intro h
    have hf2 := (emapM_ok_iff (readPixelSpec env ifd (mmapOf r) r.byteOrder)
      coords vs).mp h
    have hlen : coords.length = vs.length := hf2.length_eq
    obtain ⟨ts, hfts⟩ := forall₂_exists_right hf2 (fun c w hg => by
      obtain ⟨t, d, p, hct, _, _, _⟩ :=
        (readPixelSpec_ok_iff env ifd (mmapOf r) r.byteOrder c w).mp hg
      exact ⟨t, hct⟩)
    have hbt : buildTilePixelsGo ifd 0 coords []
        = .ok (pushAll [] (ts.zip (enumFrom 0 coords))) :=
      (buildGo_ok_iff ifd coords 0 [] _).mpr ⟨ts, hfts, rfl⟩
    have hcoordfact : ∀ t2 e, (t2, e) ∈ ts.zip (enumFrom 0 coords) →
        ∃ p d, coordTile ifd (e.2.1, e.2.2) = .ok t2
          ∧ loadDirect env ifd (mmapOf r) r.byteOrder t2 = .ok d
          ∧ calculatePixelIndex ifd e.2.1 e.2.2 = .ok p
          ∧ readU8FromTile d p
              = .ok (specAt env ifd (mmapOf r) r.byteOrder coords e.1) := by
      intro t2 e hmemp
      obtain ⟨j, hts, hcs, hidx⟩ := mem_zip_enumFrom coords ts 0 t2 e hmemp
      have hjidx : e.1 = j := by omega
      obtain ⟨w, hw, hg⟩ := forall₂_get_right hf2 j (e.2.1, e.2.2) hcs
      obtain ⟨t3, d, p, hct3, hload3, hpix3, hru3⟩ :=
        (readPixelSpec_ok_iff env ifd (mmapOf r) r.byteOrder (e.2.1, e.2.2) w).mp hg
      obtain ⟨t4, hts4, hct4⟩ := forall₂_get_right hfts j (e.2.1, e.2.2) hcs
      have ht4 : t4 = t2 := by
        rw [hts] at hts4
        injection hts4 with hh
        exact hh.symm
      have ht3 : t3 = t2 := by
        rw [ht4] at hct4
        rw [hct4] at hct3
        injection hct3 with hh
        exact hh.symm
      have hspec : specAt env ifd (mmapOf r) r.byteOrder coords e.1 = w := by
        unfold specAt
        simp only [hjidx, hcs, hg]
      rw [ht3] at hct3 hload3
      exact ⟨p, d, hct3, hload3, hpix3, by rw [hspec]; exact hru3⟩
    have hloadkeys : ∀ t2 ∈ List.map Prod.fst (pushAll [] (ts.zip (enumFrom 0 coords))),
        ∃ d, loadDirect env ifd (mmapOf r) r.byteOrder t2 = .ok d := by
      intro t2 ht2
      obtain ⟨gp, hgp, hgpt⟩ := List.mem_map.mp ht2
      obtain ⟨tk, ps⟩ := gp
      have htk : tk = t2 := hgpt
      rw [htk] at hgp
      have hne : ps ≠ [] :=
        pushAll_nonempty (ts.zip (enumFrom 0 coords)) [] (fun p hp => by cases hp)
          (t2, ps) hgp
      obtain ⟨e, he⟩ := List.exists_mem_of_ne_nil ps hne
      have hmemp : (t2, e) ∈ ts.zip (enumFrom 0 coords) := by
        rcases pushAll_mem_elem (ts.zip (enumFrom 0 coords)) [] t2 ps hgp e he
          with hin | ⟨ps0, h0, _⟩
        · exact hin
        · cases h0
      obtain ⟨p, d, _, hload, _, _⟩ := hcoordfact t2 e hmemp
      exact ⟨d, hload⟩
    obtain ⟨tiles, hloadf⟩ :=
      exists_forall₂_of_mem (List.map Prod.fst (pushAll [] (ts.zip (enumFrom 0 coords))))
        hloadkeys
    have hrt : readTilesParallelDirect env ifd
        (List.map Prod.fst (pushAll [] (ts.zip (enumFrom 0 coords))))
        (mmapOf r) r.byteOrder = .ok tiles :=
      (readTilesParallelDirect_iff env ifd td oe ce (mmapOf r) r.byteOrder
        htd hoe hce _ tiles).mpr hloadf
    have hkey : ∀ gp ∈ pushAll [] (ts.zip (enumFrom 0 coords)), ∃ tile,
        assocFind ((List.map Prod.fst (pushAll [] (ts.zip (enumFrom 0 coords)))).zip
          tiles) gp.1 = some tile
        ∧ ∀ e ∈ gp.2, ∃ p, calculatePixelIndex ifd e.2.1 e.2.2 = .ok p
            ∧ readU8FromTile tile p
                = .ok (specAt env ifd (mmapOf r) r.byteOrder coords e.1) := by
      intro gp hgp
      obtain ⟨tk, ps⟩ := gp
      obtain ⟨dt, hfind, hload⟩ := assocFind_zip _ tiles hloadf tk
        (List.mem_map_of_mem Prod.fst hgp)
      refine ⟨dt, hfind, ?_⟩
      intro e he
      have hmemp : (tk, e) ∈ ts.zip (enumFrom 0 coords) := by
        rcases pushAll_mem_elem (ts.zip (enumFrom 0 coords)) [] tk ps hgp e he
          with hin | ⟨ps0, h0, _⟩
        · exact hin
        · cases h0
      obtain ⟨p, d, _, hload2, hpix, hru⟩ := hcoordfact tk e hmemp
      have hd : d = dt := by
        rw [hload] at hload2
        injection hload2 with hh
        exact hh.symm
      rw [hd] at hru
      exact ⟨p, hpix, hru⟩
    obtain ⟨out, hsc, hlenout, htouch, _⟩ :=
      scatterGroups_pointwise ifd
        ((List.map Prod.fst (pushAll [] (ts.zip (enumFrom 0 coords)))).zip tiles)
        (specAt env ifd (mmapOf r) r.byteOrder coords)
        (pushAll [] (ts.zip (enumFrom 0 coords)))
        (List.replicate coords.length 0) hkey
    have hout : out = vs := by
      refine List.ext_get?_iff.mpr ?_
      intro j
      by_cases hjlt : j < coords.length
      · obtain ⟨c, hc⟩ : ∃ c, coords.get? j = some c := by
          cases hgc : coords.get? j with
          | none =>
            have := List.get?_eq_none.mp hgc
            omega
          | some c => exact ⟨c, rfl⟩
        obtain ⟨tj, htsj, hctj⟩ := forall₂_get_right hfts j c hc
        have hmemp : (tj, (0 + j, c.1, c.2)) ∈ ts.zip (enumFrom 0 coords) :=
          zip_enumFrom_get coords ts 0 j tj c.1 c.2 htsj hc
        obtain ⟨ps2, hgpmem, hemem⟩ :=
          pushAll_cover (ts.zip (enumFrom 0 coords)) [] tj (0 + j, c.1, c.2) hmemp
        have htch : out.get? j
            = some (specAt env ifd (mmapOf r) r.byteOrder coords j) :=
          htouch j ⟨(tj, ps2), hgpmem, (0 + j, c.1, c.2), hemem, Nat.zero_add j⟩
            (by rw [List.length_replicate]; exact hjlt)
        obtain ⟨w, hw, hg⟩ := forall₂_get_right hf2 j c hc
        have hspec : specAt env ifd (mmapOf r) r.byteOrder coords j = w := by
          unfold specAt
          simp only [hc, hg]
        rw [htch, hspec, hw]
      · have h1 : out.get? j = Option.none := List.get?_eq_none.mpr
          (by rw [hlenout, List.length_replicate]; omega)
        have h2 : vs.get? j = Option.none := List.get?_eq_none.mpr (by omega)
        rw [h1, h2]
    unfold readPixelsBatch buildTilePixels
    simp only [hbt, hrt, hsc, hout]

/-- C1 (amended): on every little-endian reader with the memory map enabled
whose tiled IFD carries tile-offset and byte-count entries and whose cache is
consistent with the sequential loader (as after `open`, where it is empty),
`read_pixels_batch` returns a vector exactly when sequential `read_pixel_value`
calls return the same vector in input order.  The little-endian restriction is
necessary: the batch path reads tile offsets and byte counts little-endian
regardless of the file byte order, while the sequential path honours it, so
the two paths diverge on big-endian files
(`batch_matches_sequential_counterexample`). -/
theorem batch_matches_sequential (env : CodecEnv) (r : TiffReaderState) (ifd : IFD)
    (td : Dimensions) (oe ce : IFDEntry) (coords : List (Nat × Nat)) (vs : List Nat)
    (hbo : r.byteOrder = .littleEndian) (hmm : r.useMmap = true)
    (htd : ifd.tileDimensions = some td)
    (hoe : ifd.getEntry 324 = some oe) (hce : ifd.getEntry 325 = some ce)
    (hcons : CacheConsistent env r ifd) :
    readPixelsBatch env r ifd coords = .ok vs
      ↔ ∃ r2, readPixelsSeq env ifd r coords = .ok (vs, r2) := by
  have hmof : mmapOf r = some r.file := by
    simp [mmapOf, hmm]
  have hB := batch_iff_spec env r ifd td oe ce htd hoe hce coords vs
  have hS := seq_iff_spec env ifd td r.file htd coords r hbo hmm rfl hcons vs
  rw [hmof, hbo] at hB
  exact hB.trans hS.symm

/-- The bytes of a minimal big-endian classic TIFF: `MM`, magic 42, first IFD
at 8 with six entries (width 1, height 1, tile width 1, tile length 1, tile
offsets pointer 86, tile byte counts pointer 90), zero next-IFD offset, a
zero tile offset at 86 and a byte-count word `01 00 00 00` at 90 (big-endian
16777216, little-endian 1). -/
def beBytes : List Nat :=
  [77, 77, 0, 42, 0, 0, 0, 8, 0, 6,
   1, 0, 0, 4, 0, 0, 0, 1, 0, 0, 0, 1,
   1, 1, 0, 4, 0, 0, 0, 1, 0, 0, 0, 1,
   1, 66, 0, 4, 0, 0, 0, 1, 0, 0, 0, 1,
   1, 67, 0, 4, 0, 0, 0, 1, 0, 0, 0, 1,
   1, 68, 0, 4, 0, 0, 0, 1, 0, 0, 0, 86,
   1, 69, 0, 4, 0, 0, 0, 1, 0, 0, 0, 90,
   0, 0, 0, 0,
   0, 0, 0, 0,
   1, 0, 0, 0,
   0, 0, 0, 0, 0, 0]

/-- The big-endian counterexample file. -/
def beFile : TFile :=
  { byteAt := fun p => (beBytes.get? p).getD 0, size := 100 }

/-- Both pixel-read paths on the opened and parsed big-endian file, over the
single in-bounds coordinate `(0, 0)`: the batch result and the sequential
result (projected to its values). -/
def c1Pair : Except Err (List Nat) × Except Err (List Nat) :=
  match openWithOptions beFile true 256 with
  | .error e => (.error e, .error e)
  | .ok r =>
    match tiffRead r with
    | .error e => (.error e, .error e)
    | .ok [ifd] =>
      (readPixelsBatch refusingEnv r ifd [(0, 0)],
       (readPixelsSeq refusingEnv ifd r [(0, 0)]).map Prod.fst)
    | .ok _ => (.ok [], .ok [])

/-- C1 counterexample: on a big-endian tiled file, the batch path succeeds
with `[77]` (it reads the tile byte count little-endian as 1) while the
sequential path panics on the slice (it reads the same word big-endian as
16777216), so `read_pixels_batch` does not match sequential
`read_pixel_value` on every reader. -/
theorem batch_matches_sequential_counterexample :
    c1Pair = (.ok [77], .error (.rustPanic "slice index out of range")) := by
  decide

/-- A minimal little-endian file for the witness: `II`-style tile data with
the tile offset word 96 at byte 86, the byte-count word 1 at byte 90, and the
tile byte `7` at byte 96. -/
def leFile : TFile :=
  { byteAt := fun p =>
      if p < 2 then 73
      else if p = 86 then 96
      else if p = 90 then 1
      else if p = 96 then 7
      else 0,
    size := 100 }

/-- A little-endian memory-mapped reader over `leFile` with a fresh cache. -/
def leReader : TiffReaderState :=
  { file := leFile, byteOrder := .littleEndian, isBigTiff := false,
    useMmap := true, pos := 4, cache := TileCache.new 256, currentIfdIndex := 0 }

/-- C1 witness: the amended equivalence applied to a concrete little-endian
mapped reader over the 1×1 tiled IFD: both paths return `[7]`. -/
theorem batch_matches_sequential_witness :
    readPixelsBatch refusingEnv leReader ifd11 [(0, 0)] = .ok [7]
    ∧ ∃ r2, readPixelsSeq refusingEnv ifd11 leReader [(0, 0)] = .ok ([7], r2) := by
  have h := batch_matches_sequential refusingEnv leReader ifd11 ⟨1, 1⟩
    ⟨324, 4, 1, 86⟩ ⟨325, 4, 1, 90⟩ [(0, 0)] [7] rfl rfl (by rfl) (by rfl) (by rfl)
    (fun t d hmem => absurd hmem (List.not_mem_nil _))
  have hseq : ∃ r2, readPixelsSeq refusingEnv ifd11 leReader [(0, 0)]
      = .ok ([7], r2) := ⟨_, rfl⟩
  exact ⟨h.mpr hseq, hseq⟩

end SkyForest
